import Mathlib

/-!
Verification of the spot-mapper location-sharing codec, viewport fitter and
location-store orchestration.

The development shallowly embeds the TypeScript sources:

* `src/utils/base64.ts` (the transport codec): `encodeToBase64`,
  `decodeFromBase64`, `isValidBase64`, `encodeToUrlSafeBase64`,
  `decodeFromUrlSafeBase64`.  The platform functions the codec calls are
  modelled executably: `JSON.stringify` / `JSON.parse` as `printJson` /
  `jsonParse` over an inductive `Json` type (numbers as exact rationals,
  printed in plain decimal form as for ordinary JS numbers; thrown
  exceptions as `Option.none`), and `btoa` / `atob` as `btoa` / `atob`
  over character lists (with `btoa` failing on characters above U+00FF and
  `atob` implementing forgiving base64).
* `src/App.tsx` (store and fitter): `MapLocation`, `addLocation`,
  `deleteLocation`, `handleMapAddLocation`, `mapBounds`,
  `generateLocationsShareUrl`, `copyLocationsShareUrl`, and the
  `handleLocationClick` timeout behaviour as a discrete-time event fold.

All definitions are executable; `Rat` primitives are re-opened to
`semireducible` so that concrete instances evaluate by `decide`.
-/

set_option maxRecDepth 4000

attribute [local semireducible] Rat.ofScientific Rat.add Rat.mul Rat.sub Rat.inv

/-! ### Characters and decimal digits -/

/-- Decimal digit test, as in the usual ASCII range check. -/
def isDigitCh (c : Char) : Bool := '0' ≤ c && c ≤ '9'

/-- The numeric value of a decimal digit character. -/
def digitVal (c : Char) : Nat := c.toNat - '0'.toNat

/-- The character of a decimal digit value below ten. -/
def digitCh (n : Nat) : Char := Char.ofNat ('0'.toNat + n)

/-- Lowercase hexadecimal digit character, as emitted by JS JSON escapes. -/
def hexDigitCh (n : Nat) : Char :=
  if n < 10 then Char.ofNat ('0'.toNat + n) else Char.ofNat ('a'.toNat + (n - 10))

/-- Hexadecimal digit test (both cases), for parsing unicode escapes. -/
def isHexCh (c : Char) : Bool :=
  isDigitCh c || ('a' ≤ c && c ≤ 'f') || ('A' ≤ c && c ≤ 'F')

/-- The numeric value of a hexadecimal digit character. -/
def hexVal (c : Char) : Nat :=
  if isDigitCh c then c.toNat - '0'.toNat
  else if 'a' ≤ c && c ≤ 'f' then c.toNat - 'a'.toNat + 10
  else c.toNat - 'A'.toNat + 10

/-- JSON whitespace (the four characters `JSON.parse` skips). -/
def isWsCh (c : Char) : Bool := c == ' ' || c == '\t' || c == '\n' || c == '\r'

/-- Decimal digit characters of a natural number, most significant first. -/
def natDigits (n : Nat) : List Char :=
  if _h : n < 10 then [digitCh n] else natDigits (n / 10) ++ [digitCh (n % 10)]
termination_by n
decreasing_by exact Nat.div_lt_self (by omega) (by omega)

/-- The value of a run of decimal digit characters (most significant first). -/
def digitsToNat (ds : List Char) : Nat :=
  ds.foldl (fun a c => a * 10 + digitVal c) 0

/-! ### The `Json` value model

`Json` models the JS values the application passes to `JSON.stringify`:
`null`, booleans, numbers, strings, arrays and objects (key order and
duplicates preserved, as `JSON.stringify` prints members in insertion
order).  Numbers are exact rationals standing for the decimal value a JS
number prints as; the development's number hypotheses (`jnumOk`) restrict
to rationals with a terminating decimal expansion, which covers every
value an actual JS double renders in plain decimal notation. -/

inductive Json where
  | null
  | bool (b : Bool)
  | num (q : ℚ)
  | str (s : List Char)
  | arr (items : List Json)
  | obj (members : List (List Char × Json))

/-- Fractional-digit budget of the decimal printer: enough for every
decimal a JS double prints in plain notation. -/
def fracFuel : Nat := 30

/-- The fractional digits of `r ∈ [0,1)`, by repeated scaling; stops at a
zero remainder, and in any case after `fuel` digits. -/
def fracDigits : Nat → ℚ → List Char
  | 0, _ => []
  | fuel + 1, r =>
    if r = 0 then []
    else digitCh (Rat.floor (r * 10)).toNat :: fracDigits fuel (r * 10 - Rat.floor (r * 10))

/-- Plain decimal rendering of a nonnegative rational: integer digits,
then a point and the fractional digits when the fraction is nonzero. -/
def printQNonneg (q : ℚ) : List Char :=
  let ip := (Rat.floor q).toNat
  let fr := q - Rat.floor q
  if fr = 0 then natDigits ip else natDigits ip ++ '.' :: fracDigits fracFuel fr

/-- Decimal rendering of a rational, as a JS number prints (a leading
minus sign for negative values, plain decimal otherwise). -/
def printQ (q : ℚ) : List Char :=
  if q < 0 then '-' :: printQNonneg (-q) else printQNonneg q

/-- One string character, escaped as `JSON.stringify` escapes it: quote
and backslash get two-character escapes, the five named control characters
their short forms, other control characters a lowercase `\u00xx` escape,
and everything else is emitted literally. -/
def escCh (c : Char) : List Char :=
  if c = '"' then ['\\', '"']
  else if c = '\\' then ['\\', '\\']
  else if c.toNat = 8 then ['\\', 'b']
  else if c.toNat = 9 then ['\\', 't']
  else if c.toNat = 10 then ['\\', 'n']
  else if c.toNat = 12 then ['\\', 'f']
  else if c.toNat = 13 then ['\\', 'r']
  else if c.toNat < 32 then
    ['\\', 'u', '0', '0', hexDigitCh (c.toNat / 16), hexDigitCh (c.toNat % 16)]
  else [c]

/-- A JSON string literal: quote, escaped body, quote. -/
def printStr (s : List Char) : List Char :=
  '"' :: ((s.map escCh).flatten ++ ['"'])

mutual

/-- `JSON.stringify` without replacer or spacing: compact rendering with
members in order and no whitespace. -/
def printJson : Json → List Char
  | .null => ("null").toList
  | .bool true => ("true").toList
  | .bool false => ("false").toList
  | .num q => printQ q
  | .str s => printStr s
  | .arr [] => ['[', ']']
  | .arr (v :: vs) => '[' :: (printJson v ++ printArrTail vs) ++ [']']
  | .obj [] => ['{', '}']
  | .obj (m :: ms) => '{' :: (printPair m ++ printObjTail ms) ++ ['}']

/-- Remaining array items, each preceded by a comma. -/
def printArrTail : List Json → List Char
  | [] => []
  | v :: vs => ',' :: printJson v ++ printArrTail vs

/-- One object member: quoted key, colon, value. -/
def printPair : List Char × Json → List Char
  | (k, v) => printStr k ++ ':' :: printJson v

/-- Remaining object members, each preceded by a comma. -/
def printObjTail : List (List Char × Json) → List Char
  | [] => []
  | m :: ms => ',' :: printPair m ++ printObjTail ms

end

mutual

/-- Every number inside the value has a terminating decimal expansion
within the printer's digit budget (true of every plainly printed JS
double). -/
def jnumOk : Json → Bool
  | .num q => (q * 10 ^ fracFuel).den == 1
  | .arr items => jnumOkArr items
  | .obj members => jnumOkObj members
  | _ => true

/-- `jnumOk` over a list of array items. -/
def jnumOkArr : List Json → Bool
  | [] => true
  | v :: vs => jnumOk v && jnumOkArr vs

/-- `jnumOk` over object members. -/
def jnumOkObj : List (List Char × Json) → Bool
  | [] => true
  | (_, v) :: ms => jnumOk v && jnumOkObj ms

end

/-! ### The `JSON.parse` model

A recursive-descent parser over character lists, covering the JSON
grammar `JSON.parse` accepts: whitespace between tokens, the three
keywords, numbers with optional sign, fraction and exponent (no leading
zeros), strings with the standard escapes including `\uXXXX`, and nested
arrays and objects.  Structural recursion is on a fuel counter; the
top-level entry uses the input length as fuel, which the round-trip
lemmas show suffices. -/

/-- Split a leading run of decimal digits from the input. -/
def spanDigits : List Char → List Char × List Char
  | [] => ([], [])
  | c :: cs =>
    if isDigitCh c then
      let (ds, r) := spanDigits cs
      (c :: ds, r)
    else ([], c :: cs)

/-- Parse the JSON integer part: a bare `0`, or a digit run not starting
with `0`. -/
def parseIntPart : List Char → Option (Nat × List Char)
  | [] => none
  | c :: cs =>
    if c = '0' then some (0, cs)
    else if isDigitCh c then
      let (ds, r) := spanDigits (c :: cs)
      some (digitsToNat ds, r)
    else none

/-- Parse an optional fraction part: a `.` must be followed by at least
one digit; with no `.`, the fraction is zero. -/
def parseFracPart : List Char → Option (ℚ × List Char)
  | [] => some (0, [])
  | c :: cs =>
    if c = '.' then
      let (ds, r) := spanDigits cs
      if ds.isEmpty then none else some ((digitsToNat ds : ℚ) / 10 ^ ds.length, r)
    else some (0, c :: cs)

/-- An exponent's digit run, as the scale factor it denotes. -/
def expDigits (cs : List Char) (neg : Bool) : Option (ℚ × List Char) :=
  let (ds, r) := spanDigits cs
  if ds.isEmpty then none
  else some (if neg then 1 / (10 : ℚ) ^ digitsToNat ds else (10 : ℚ) ^ digitsToNat ds, r)

/-- Parse an optional exponent part into the scale factor it denotes. -/
def parseExpPart : List Char → Option (ℚ × List Char)
  | [] => some (1, [])
  | c :: cs =>
    if c = 'e' ∨ c = 'E' then
      match cs with
      | [] => none
      | e1 :: cs1 =>
        if e1 = '+' then expDigits cs1 false
        else if e1 = '-' then expDigits cs1 true
        else expDigits (e1 :: cs1) false
    else some (1, c :: cs)

/-- Parse a nonnegative JSON number (integer, fraction, exponent). -/
def parseNumPos (s : List Char) : Option (ℚ × List Char) := do
  let (ip, s1) ← parseIntPart s
  let (fr, s2) ← parseFracPart s1
  let (sc, s3) ← parseExpPart s2
  pure (((ip : ℚ) + fr) * sc, s3)

/-- Parse a JSON number with its optional leading minus sign. -/
def parseNum : List Char → Option (ℚ × List Char)
  | [] => parseNumPos []
  | c :: cs =>
    if c = '-' then (parseNumPos cs).map (fun p => (-p.1, p.2))
    else parseNumPos (c :: cs)

/-- The character a single-letter escape denotes. -/
def escTarget (e : Char) : Option Char :=
  if e = '"' then some '"'
  else if e = '\\' then some '\\'
  else if e = '/' then some '/'
  else if e = 'b' then some (Char.ofNat 8)
  else if e = 't' then some (Char.ofNat 9)
  else if e = 'n' then some (Char.ofNat 10)
  else if e = 'f' then some (Char.ofNat 12)
  else if e = 'r' then some (Char.ofNat 13)
  else none

/-- Parse a string body after the opening quote, undoing the escapes;
raw control characters are rejected, as in `JSON.parse`. -/
def parseStrBody : List Char → Option (List Char × List Char)
  | [] => none
  | c :: cs =>
    if c = '"' then some ([], cs)
    else if c = '\\' then
      match cs with
      | [] => none
      | e :: cs1 =>
        if e = 'u' then
          match cs1 with
          | h1 :: h2 :: h3 :: h4 :: cs2 =>
            if isHexCh h1 && isHexCh h2 && isHexCh h3 && isHexCh h4 then
              match parseStrBody cs2 with
              | some (s, r) =>
                some (Char.ofNat (((hexVal h1 * 16 + hexVal h2) * 16 + hexVal h3) * 16
                  + hexVal h4) :: s, r)
              | none => none
            else none
          | _ => none
        else
          match escTarget e with
          | some d =>
            match parseStrBody cs1 with
            | some (s, r) => some (d :: s, r)
            | none => none
          | none => none
    else if c.toNat < 32 then none
    else
      match parseStrBody cs with
      | some (s, r) => some (c :: s, r)
      | none => none

/-- Drop leading JSON whitespace. -/
def skipWs : List Char → List Char
  | [] => []
  | c :: cs => if isWsCh c then skipWs cs else c :: cs

mutual

/-- Parse one JSON value (dispatch on the first significant character). -/
def parseValue : Nat → List Char → Option (Json × List Char)
  | 0, _ => none
  | fuel + 1, s =>
    match skipWs s with
    | [] => none
    | c :: cs =>
      if c = '"' then (parseStrBody cs).map (fun p => (Json.str p.1, p.2))
      else if c = '[' then
        match skipWs cs with
        | [] => none
        | c1 :: r1 =>
          if c1 = ']' then some (Json.arr [], r1)
          else (parseItems fuel (c1 :: r1)).map (fun p => (Json.arr p.1, p.2))
      else if c = '{' then
        match skipWs cs with
        | [] => none
        | c1 :: r1 =>
          if c1 = '}' then some (Json.obj [], r1)
          else (parseMembers fuel (c1 :: r1)).map (fun p => (Json.obj p.1, p.2))
      else if c = 't' then
        match cs with
        | 'r' :: 'u' :: 'e' :: r => some (Json.bool true, r)
        | _ => none
      else if c = 'f' then
        match cs with
        | 'a' :: 'l' :: 's' :: 'e' :: r => some (Json.bool false, r)
        | _ => none
      else if c = 'n' then
        match cs with
        | 'u' :: 'l' :: 'l' :: r => some (Json.null, r)
        | _ => none
      else (parseNum (c :: cs)).map (fun p => (Json.num p.1, p.2))

/-- Parse one or more comma-separated array items up to the closing
bracket. -/
def parseItems : Nat → List Char → Option (List Json × List Char)
  | 0, _ => none
  | fuel + 1, s =>
    match parseValue fuel s with
    | none => none
    | some (v, r) =>
      match skipWs r with
      | [] => none
      | c1 :: r1 =>
        if c1 = ',' then
          match parseItems fuel r1 with
          | some (vs, r2) => some (v :: vs, r2)
          | none => none
        else if c1 = ']' then some ([v], r1)
        else none

/-- Parse one or more comma-separated object members up to the closing
brace. -/
def parseMembers : Nat → List Char → Option (List (List Char × Json) × List Char)
  | 0, _ => none
  | fuel + 1, s =>
    match skipWs s with
    | [] => none
    | c0 :: cs =>
      if c0 = '"' then
        match parseStrBody cs with
        | none => none
        | some (k, r) =>
          match skipWs r with
          | [] => none
          | c1 :: r1 =>
            if c1 = ':' then
              match parseValue fuel r1 with
              | none => none
              | some (v, r2) =>
                match skipWs r2 with
                | [] => none
                | c2 :: r3 =>
                  if c2 = ',' then
                    match parseMembers fuel r3 with
                    | some (ms, r4) => some ((k, v) :: ms, r4)
                    | none => none
                  else if c2 = '}' then some ([(k, v)], r3)
                  else none
            else none
      else none

end

/-- `JSON.parse`: parse one value and require only whitespace after it. -/
def jsonParse (s : List Char) : Option Json :=
  match parseValue (s.length + 1) s with
  | some (v, r) => if skipWs r = [] then some v else none
  | none => none

/-! ### The `btoa` / `atob` model

`btoa` maps a JS string whose characters are all at most U+00FF to its
standard base64 form (and throws — here `none` — otherwise); `atob`
implements forgiving base64 decoding: up to two trailing `=` are dropped
when the length is a multiple of four, a remaining length of 1 mod 4 or
any character outside the standard alphabet is an error, and leftover
bits of a final 2- or 3-character group are discarded. -/

/-- The standard base64 alphabet, in index order. -/
def b64Alphabet : List Char :=
  ("ABCDEFGHIJKLMNOPQRSTUVWXYZabcdefghijklmnopqrstuvwxyz0123456789+/").toList

/-- The base64 character of a 6-bit value. -/
def b64Chr (n : Nat) : Char := b64Alphabet.getD n 'A'

/-- The 6-bit value of a base64 character. -/
def b64Idx (c : Char) : Nat := b64Alphabet.indexOf c

/-- Membership in the standard base64 alphabet. -/
def isB64Ch (c : Char) : Bool := b64Alphabet.contains c

/-- Base64-encode a byte list: each 3-byte group becomes 4 characters, a
final 1- or 2-byte group becomes 2 or 3 characters plus `=` padding. -/
def b64EncBytes : List Nat → List Char
  | [] => []
  | [a] => [b64Chr (a / 4), b64Chr (a % 4 * 16), '=', '=']
  | [a, b] => [b64Chr (a / 4), b64Chr (a % 4 * 16 + b / 16), b64Chr (b % 16 * 4), '=']
  | a :: b :: c :: rest =>
    b64Chr (a / 4) :: b64Chr (a % 4 * 16 + b / 16) :: b64Chr (b % 16 * 4 + c / 64)
      :: b64Chr (c % 64) :: b64EncBytes rest

/-- The non-padding part of `b64EncBytes` (for reasoning). -/
def encCore : List Nat → List Char
  | [] => []
  | [a] => [b64Chr (a / 4), b64Chr (a % 4 * 16)]
  | [a, b] => [b64Chr (a / 4), b64Chr (a % 4 * 16 + b / 16), b64Chr (b % 16 * 4)]
  | a :: b :: c :: rest =>
    b64Chr (a / 4) :: b64Chr (a % 4 * 16 + b / 16) :: b64Chr (b % 16 * 4 + c / 64)
      :: b64Chr (c % 64) :: encCore rest

/-- The number of `=` padding characters `b64EncBytes` appends. -/
def padLen : List Nat → Nat
  | [] => 0
  | [_] => 2
  | [_, _] => 1
  | _ :: _ :: _ :: rest => padLen rest

/-- Remove up to two trailing `=` characters (the forgiving-base64
stripping step). -/
def stripPad (s : List Char) : List Char :=
  match s.reverse with
  | c1 :: c2 :: r =>
    if c1 = '=' then (if c2 = '=' then r.reverse else (c2 :: r).reverse) else s
  | [c1] => if c1 = '=' then [] else s
  | [] => s

/-- Decode 6-bit groups back into bytes; a trailing group of 2 or 3
values yields 1 or 2 bytes with the excess bits discarded. -/
def b64DecNums : List Nat → Option (List Nat)
  | [] => some []
  | [_] => none
  | [n1, n2] => some [n1 * 4 + n2 / 16]
  | [n1, n2, n3] => some [n1 * 4 + n2 / 16, n2 % 16 * 16 + n3 / 4]
  | n1 :: n2 :: n3 :: n4 :: rest =>
    match b64DecNums rest with
    | some bs => some ((n1 * 4 + n2 / 16) :: (n2 % 16 * 16 + n3 / 4) :: (n3 % 4 * 64 + n4) :: bs)
    | none => none

/-- The `btoa` platform function over character lists. -/
def btoa (s : List Char) : Option (List Char) :=
  if s.all (fun c => c.toNat < 256) then some (b64EncBytes (s.map Char.toNat)) else none

/-- The `atob` platform function (forgiving base64) over character
lists. -/
def atob (s : List Char) : Option (List Char) :=
  let core := if s.length % 4 = 0 then stripPad s else s
  if core.length % 4 = 1 then none
  else if core.all isB64Ch then
    match b64DecNums (core.map b64Idx) with
    | some bs => some (bs.map Char.ofNat)
    | none => none
  else none

/-! ### The transport codec (`src/utils/base64.ts`) -/

/-- `encodeToBase64`: `JSON.stringify` then `btoa`; a thrown error is
`none`. -/
def encodeToBase64 (v : Json) : Option (List Char) := btoa (printJson v)

/-- `decodeFromBase64`: `atob` then `JSON.parse`; a thrown error is
`none`. -/
def decodeFromBase64 (s : List Char) : Option Json := (atob s).bind jsonParse

/-- The regex test `^[A-Za-z0-9+/]*={0,2}$` of `isValidBase64`: a run of
standard alphabet characters followed by at most two `=`. -/
def b64PatternOk (s : List Char) : Bool :=
  let body := (s.reverse.dropWhile (fun c => c == '=')).reverse
  decide (s.length - body.length ≤ 2) && body.all isB64Ch

/-- `isValidBase64`: the regex test, then decode and re-encode and
compare with the input; any failure gives `false`. -/
def isValidBase64 (s : List Char) : Bool :=
  b64PatternOk s &&
    match decodeFromBase64 s with
    | some d =>
      match encodeToBase64 d with
      | some r => r == s
      | none => false
    | none => none == some s

/-- The first substitution: a plus becomes a minus. -/
def plusToMinus (c : Char) : Char := if c = '+' then '-' else c

/-- The second substitution: a slash becomes an underscore. -/
def slashToUnder (c : Char) : Char := if c = '/' then '_' else c

/-- The reverse substitution: a minus becomes a plus again. -/
def minusToPlus (c : Char) : Char := if c = '-' then '+' else c

/-- The reverse substitution: an underscore becomes a slash again. -/
def underToSlash (c : Char) : Char := if c = '_' then '/' else c

/-- `encodeToUrlSafeBase64`: standard base64 with `+` replaced by `-`,
then `/` replaced by `_`, then all `=` removed. -/
def encodeToUrlSafeBase64 (v : Json) : Option (List Char) :=
  (encodeToBase64 v).map (fun b =>
    (((b.map plusToMinus).map slashToUnder).filter (fun c => c != '=')))

/-- Restore the stripped padding: with `p = 4 - len % 4`, append `p`
characters of `=` unless `p = 4`. -/
def restorePad (s : List Char) : List Char :=
  let p := 4 - s.length % 4
  if p ≠ 4 then s ++ List.replicate p '=' else s

/-- `decodeFromUrlSafeBase64`: undo the alphabet substitution, restore
padding, then decode as standard base64. -/
def decodeFromUrlSafeBase64 (t : List Char) : Option Json :=
  decodeFromBase64 (restorePad ((t.map minusToPlus).map underToSlash))

/-! ### The location store and viewport fitter (`src/App.tsx`) -/

/-- A location record as held in the `mapLocations` state: coordinates,
name, optional description. -/
structure MapLocation where
  lat : ℚ
  lng : ℚ
  name : List Char
  description : Option (List Char)
deriving DecidableEq

/-- The default seed list the store starts from. -/
def defaultMapLocations : List MapLocation :=
  [⟨36.3932, 25.4615, ("Santorini, Greece").toList,
      some (("Beautiful Greek island with stunning sunsets").toList)⟩,
   ⟨46.5197, 6.6323, ("Swiss Alps, Switzerland").toList,
      some (("Breathtaking alpine landscapes and hiking trails").toList)⟩,
   ⟨48.8566, 2.3522, ("Paris, France").toList,
      some (("The City of Light with iconic landmarks").toList)⟩,
   ⟨35.6762, 139.6503, ("Tokyo, Japan").toList,
      some (("Modern metropolis with rich culture").toList)⟩,
   ⟨-33.8688, 151.2093, ("Sydney, Australia").toList,
      some (("Harbor city with beautiful beaches").toList)⟩]

/-- JS `String.trim` over the whitespace characters relevant here. -/
def trimChars (s : List Char) : List Char :=
  ((s.dropWhile isWsCh).reverse.dropWhile isWsCh).reverse

/-- The form-add handler `addLocation`: `parseFloat` results are modelled
as `Option ℚ` (`none` for NaN); an invalid input leaves the list
unchanged (the alert path), a valid one appends the record with trimmed
name and optional trimmed description. -/
def addLocation (latS lngS : Option ℚ) (nameI descI : List Char)
    (locs : List MapLocation) : List MapLocation :=
  match latS, lngS with
  | some lat, some lng =>
    if trimChars nameI = [] then locs
    else if lat < -90 ∨ lat > 90 ∨ lng < -180 ∨ lng > 180 then locs
    else locs ++ [⟨lat, lng, trimChars nameI,
      if trimChars descI = [] then none else some (trimChars descI)⟩]
  | _, _ => locs

/-- `deleteLocation`: `filter((_, i) => i !== index)` over the indexed
list. -/
def deleteLocation (locs : List MapLocation) (i : Nat) : List MapLocation :=
  (locs.enum.filter (fun p => p.1 != i)).map (fun p => p.2)

/-- The map-click handler `handleMapAddLocation`: appends the record
directly, with no coordinate validation and no trimming (the empty
description becomes `undefined` through `|| undefined`). -/
def handleMapAddLocation (lat lng : ℚ) (nameI descI : List Char)
    (locs : List MapLocation) : List MapLocation :=
  locs ++ [⟨lat, lng, nameI, if descI = [] then none else some descI⟩]

/-- The shared append step `[...mapLocations, location]` both add paths
perform once a record is accepted. -/
def addRecord (locs : List MapLocation) (r : MapLocation) : List MapLocation :=
  locs ++ [r]

/-- JS `Array.indexOf` restricted to present elements: the index of the
first occurrence. -/
def jsIndexOf : List MapLocation → MapLocation → Nat
  | [], _ => 0
  | x :: xs, r => if x = r then 0 else jsIndexOf xs r + 1

/-- The spec's record invariant: latitude in `[-90, 90]`, longitude in
`[-180, 180]`, non-empty name. -/
def locValid (p : MapLocation) : Bool :=
  decide (-90 ≤ p.lat) && decide (p.lat ≤ 90) &&
    decide (-180 ≤ p.lng) && decide (p.lng ≤ 180) && p.name != []

/-- The invariant over the whole store. -/
def storeInvariant (locs : List MapLocation) : Bool := locs.all locValid

/-- The store mutations reachable from the UI: seeding from a decoded
URL payload (the decoded records are whatever the token carried), the
validated form add, the map-click add, and deletion. -/
inductive StoreEv where
  | seedFromUrl (decoded : List MapLocation)
  | formAdd (latS lngS : Option ℚ) (nameI descI : List Char)
  | mapClickAdd (lat lng : ℚ) (nameI descI : List Char)
  | del (i : Nat)

/-- One store mutation. -/
def applyStoreEv (locs : List MapLocation) : StoreEv → List MapLocation
  | .seedFromUrl decoded => decoded
  | .formAdd latS lngS nameI descI => addLocation latS lngS nameI descI locs
  | .mapClickAdd lat lng nameI descI => handleMapAddLocation lat lng nameI descI locs
  | .del i => deleteLocation locs i

/-- The store state after a sequence of mutations. -/
def runStore (init : List MapLocation) (evs : List StoreEv) : List MapLocation :=
  evs.foldl applyStoreEv init

/-- Events that go through the validated form path or deletion. -/
def evValidated : StoreEv → Bool
  | .formAdd _ _ _ _ => true
  | .del _ => true
  | _ => false

/-- The viewport the fitter produces: a center and a zoom level. -/
structure MapView where
  center : ℚ × ℚ
  zoom : Nat
deriving DecidableEq

/-- Fold a projection to its minimum over a nonempty location list. -/
def foldMinBy (f : MapLocation → ℚ) (l : MapLocation) (ls : List MapLocation) : ℚ :=
  ls.foldl (fun a x => min a (f x)) (f l)

/-- Fold a projection to its maximum over a nonempty location list. -/
def foldMaxBy (f : MapLocation → ℚ) (l : MapLocation) (ls : List MapLocation) : ℚ :=
  ls.foldl (fun a x => max a (f x)) (f l)

/-- The bounding-box span `max(latSpan, lngSpan)` of a nonempty list. -/
def spanOf (l : MapLocation) (ls : List MapLocation) : ℚ :=
  max (foldMaxBy (fun x => x.lat) l ls - foldMinBy (fun x => x.lat) l ls)
    (foldMaxBy (fun x => x.lng) l ls - foldMinBy (fun x => x.lng) l ls)

/-- The `mapBounds` viewport fitter: fixed fallback for the empty list,
the point itself for a singleton, and otherwise the bounding-box midpoint
with a zoom tier chosen from the span by fixed thresholds (each tier with
a mobile and a desktop zoom). -/
def mapBounds (locations : List MapLocation) (isMobile : Bool) : MapView :=
  match locations with
  | [] => ⟨(46.5197, 6.6323), if isMobile then 3 else 4⟩
  | [l] => ⟨(l.lat, l.lng), if isMobile then 8 else 10⟩
  | l :: ls =>
    let minLat := foldMinBy (fun x => x.lat) l ls
    let maxLat := foldMaxBy (fun x => x.lat) l ls
    let minLng := foldMinBy (fun x => x.lng) l ls
    let maxLng := foldMaxBy (fun x => x.lng) l ls
    let centerLat := (minLat + maxLat) / 2
    let centerLng := (minLng + maxLng) / 2
    let maxSpan := max (maxLat - minLat) (maxLng - minLng)
    let zoom :=
      if maxSpan < 0.01 then (if isMobile then 11 else 13)
      else if maxSpan < 0.1 then (if isMobile then 8 else 10)
      else if maxSpan < 1 then (if isMobile then 5 else 7)
      else if maxSpan < 10 then (if isMobile then 3 else 5)
      else (if isMobile then 2 else 3)
    ⟨(centerLat, centerLng), zoom⟩

/-- The zoom tiering as the spec words it: fixed thresholds 0.01, 0.1,
1, 10 on the span, each tier with a compact and a regular zoom value.
Stated separately from `mapBounds` so the fitter can be compared against
it. -/
def zoomTierSpec (span : ℚ) (m : Bool) : Nat :=
  if span < 0.01 then (if m then 11 else 13)
  else if span < 0.1 then (if m then 8 else 10)
  else if span < 1 then (if m then 5 else 7)
  else if span < 10 then (if m then 3 else 5)
  else (if m then 2 else 3)

/-! ### Share-URL state (`generateLocationsShareUrl` / `copyLocationsShareUrl`) -/

/-- The slice of component state the share actions read and write. -/
structure AppShareState where
  mapLocations : List MapLocation
  locationsShareUrl : List Char
deriving DecidableEq

/-- One location as the JS object `JSON.stringify` sees it: keys in
insertion order, `description` omitted when `undefined`. -/
def locJson (r : MapLocation) : Json :=
  Json.obj ([(("lat").toList, Json.num r.lat), (("lng").toList, Json.num r.lng),
    (("name").toList, Json.str r.name)] ++
    (match r.description with
     | some d => [(("description").toList, Json.str d)]
     | none => []))

/-- `encodeToUrlSafeBase64(mapLocations)`. -/
def encodeLocations (locs : List MapLocation) : Option (List Char) :=
  encodeToUrlSafeBase64 (Json.arr (locs.map locJson))

/-- The page URL with the `locations` query parameter cleared and re-set:
the `window.location`-dependent part is modelled as a fixed base. -/
def appShareBase : List Char := ("https://spot-mapper.example/?locations=").toList

/-- `generateLocationsShareUrl`: with a non-empty list, encode it, build
the share URL, store it in state and return it; with an empty list,
return the empty string and leave the state alone.  An encoding failure
propagates (`none`). -/
def generateLocationsShareUrl (s : AppShareState) : Option (List Char × AppShareState) :=
  if s.mapLocations.length > 0 then
    match encodeLocations s.mapLocations with
    | some tok => some (appShareBase ++ tok, ⟨s.mapLocations, appShareBase ++ tok⟩)
    | none => none
  else some ([], s)

/-- `copyLocationsShareUrl`: `locationsShareUrl || generateLocationsShareUrl()`,
then copy the result when it is non-empty.  The first component is what
is written to the clipboard (`none` when nothing is copied). -/
def copyLocationsShareUrl (s : AppShareState) :
    Option (Option (List Char) × AppShareState) :=
  match (if s.locationsShareUrl ≠ [] then some (s.locationsShareUrl, s)
         else generateLocationsShareUrl s) with
  | none => none
  | some (url, s1) => if url ≠ [] then some (some url, s1) else some (none, s1)

/-! ### The focus designation and its deferred clear (`handleLocationClick`)

Each list click sets the focused index and schedules an independent
`setTimeout` that clears it unconditionally 5000 ms later; no timer is
ever cancelled.  The model folds the time-sorted merge of click events
and timer firings, asking for the focused index visible at a given
time. -/

/-- The fixed deferred-clear delay, in milliseconds. -/
def clearDelayMs : Nat := 5000

/-- Insert one timed event into a time-sorted list. -/
def insertByTime (x : Nat × Option Nat) :
    List (Nat × Option Nat) → List (Nat × Option Nat)
  | [] => [x]
  | y :: ys => if x.1 ≤ y.1 then x :: y :: ys else y :: insertByTime x ys

/-- Sort timed events by time. -/
def sortByTime (es : List (Nat × Option Nat)) : List (Nat × Option Nat) :=
  es.foldr insertByTime []

/-- The merged timeline of a click sequence: each click `(t, i)`
contributes the focus event `(t, some i)` and its uncancelled timer
firing `(t + clearDelayMs, none)`. -/
def focusTimeline (clicks : List (Nat × Nat)) : List (Nat × Option Nat) :=
  sortByTime (clicks.map (fun c => (c.1, some c.2)) ++
    clicks.map (fun c => (c.1 + clearDelayMs, none)))

/-- The focused index visible at time `t`: fold the timeline events that
have happened, a click overwriting the focus and a timer firing clearing
it unconditionally. -/
def focusAfter (clicks : List (Nat × Nat)) (t : Nat) : Option Nat :=
  ((focusTimeline clicks).filter (fun e => e.1 ≤ t)).foldl
    (fun _st e => match e.2 with | some i => some i | none => none) none

/-- Membership in the URL-safe token alphabet `A-Z a-z 0-9 - _`. -/
def isUrlSafeChar (c : Char) : Bool :=
  ('A' ≤ c && c ≤ 'Z') || ('a' ≤ c && c ≤ 'z') || ('0' ≤ c && c ≤ '9') || c == '-' || c == '_'

/-! ### Boundary predicates used by the round-trip lemmas -/

/-- The remainder does not start with a digit. -/
def noDigitHead : List Char → Bool
  | [] => true
  | c :: _ => !isDigitCh c

/-- The remainder cannot extend a printed number: empty, or headed by a
character that is no digit and none of `.`, `e`, `E`.  Every position a
printed value is followed by in canonical output (`,`, `]`, `:`, the
closing brace, end of input) qualifies. -/
def numBoundary : List Char → Bool
  | [] => true
  | c :: _ => !(isDigitCh c || c == '.' || c == 'e' || c == 'E')

/-! ### Decimal digit lemmas -/

theorem digitCh_spec (n : Nat) (h : n < 10) :
    isDigitCh (digitCh n) = true ∧ digitVal (digitCh n) = n := by
  interval_cases n <;> exact ⟨by decide, by decide⟩

theorem digitCh_ne_zero_ch (n : Nat) (h : n < 10) (hn : n ≠ 0) : digitCh n ≠ '0' := by
  interval_cases n
  · exact absurd rfl hn
  all_goals decide

theorem natDigits_ne_nil (n : Nat) : natDigits n ≠ [] := by
  rw [natDigits.eq_def]
  split <;> simp

theorem natDigits_all_digit (n : Nat) : ∀ c ∈ natDigits n, isDigitCh c = true := by
  induction n using Nat.strongRecOn with
  | _ n ih =>
    rw [natDigits.eq_def]
    split
    · next h => intro c hc; rw [List.mem_singleton] at hc; subst hc; exact (digitCh_spec n h).1
    · next h =>
      intro c hc
      rw [List.mem_append] at hc
      rcases hc with hc | hc
      · exact ih (n / 10) (Nat.div_lt_self (by omega) (by omega)) c hc
      · rw [List.mem_singleton] at hc; subst hc
        exact (digitCh_spec _ (Nat.mod_lt _ (by omega))).1

theorem foldlDigits_shift (ds : List Char) : ∀ a : Nat,
    ds.foldl (fun x c => x * 10 + digitVal c) a
      = a * 10 ^ ds.length + ds.foldl (fun x c => x * 10 + digitVal c) 0 := by
  induction ds with
  | nil => intro a; simp
  | cons c ds ih =>
    intro a
    simp only [List.foldl_cons, List.length_cons]
    rw [ih (a * 10 + digitVal c), ih (0 * 10 + digitVal c)]
    ring

theorem digitsToNat_natDigits (n : Nat) : digitsToNat (natDigits n) = n := by
  induction n using Nat.strongRecOn with
  | _ n ih =>
    rw [natDigits.eq_def]
    split
    · next h => simp [digitsToNat, (digitCh_spec n h).2]
    · next h =>
      simp only [digitsToNat, List.foldl_append, List.foldl_cons, List.foldl_nil]
      have h1 := ih (n / 10) (Nat.div_lt_self (by omega) (by omega))
      simp only [digitsToNat] at h1
      rw [h1, (digitCh_spec _ (Nat.mod_lt _ (by omega))).2]
      omega

theorem natDigits_head (n : Nat) :
    ∃ c t, natDigits n = c :: t ∧ isDigitCh c = true ∧ (n ≠ 0 → c ≠ '0') := by
  induction n using Nat.strongRecOn with
  | _ n ih =>
    rw [natDigits.eq_def]
    split
    · next h =>
      refine ⟨digitCh n, [], rfl, (digitCh_spec n h).1, fun hn => digitCh_ne_zero_ch n h hn⟩
    · next h =>
      obtain ⟨c, t, heq, hd, hz⟩ := ih (n / 10) (Nat.div_lt_self (by omega) (by omega))
      exact ⟨c, t ++ [digitCh (n % 10)], by rw [heq]; rfl, hd,
        fun _ => hz (by omega)⟩

/-! ### `spanDigits` and `parseIntPart` lemmas -/

theorem spanDigits_stop (s : List Char) (h : noDigitHead s = true) :
    spanDigits s = ([], s) := by
  cases s with
  | nil => rfl
  | cons c cs =>
    simp only [noDigitHead, Bool.not_eq_true'] at h
    simp [spanDigits, h]

theorem spanDigits_run (ds rest : List Char) (hds : ∀ c ∈ ds, isDigitCh c = true)
    (hrest : noDigitHead rest = true) : spanDigits (ds ++ rest) = (ds, rest) := by
  induction ds with
  | nil => simpa using spanDigits_stop rest hrest
  | cons c ds ih =>
    have hc : isDigitCh c = true := hds c (by simp)
    have ht := ih (fun x hx => hds x (by simp [hx]))
    simp [spanDigits, hc, ht]

theorem numBoundary_noDigitHead (s : List Char) (h : numBoundary s = true) :
    noDigitHead s = true := by
  cases s with
  | nil => rfl
  | cons c cs =>
    simp only [numBoundary, Bool.not_eq_true', Bool.or_eq_false_iff] at h
    simp [noDigitHead, h.1.1.1]

theorem parseIntPart_natDigits (n : Nat) (rest : List Char)
    (hrest : noDigitHead rest = true) :
    parseIntPart (natDigits n ++ rest) = some (n, rest) := by
  by_cases hn : n = 0
  · subst hn
    have h0 : natDigits 0 = ['0'] := by rw [natDigits.eq_def]; norm_num; rfl
    rw [h0]
    simp [parseIntPart]
  · obtain ⟨c, t, heq, hcd, hcz⟩ := natDigits_head n
    have hcz' : c ≠ '0' := hcz hn
    have hspan : spanDigits (c :: (t ++ rest)) = (c :: t, rest) := by
      have := spanDigits_run (c :: t) rest (fun x hx => natDigits_all_digit n x (heq ▸ hx)) hrest
      simpa using this
    have hval : digitsToNat (c :: t) = n := by
      have := digitsToNat_natDigits n
      rwa [heq] at this
    rw [heq]
    simp only [List.cons_append, parseIntPart, if_neg hcz', hcd, if_pos trivial, hspan]
    simp [hval]

/-! ### Decimal printer round trip -/

theorem ratFloor_eq (q : ℚ) : Rat.floor q = ⌊q⌋ := by
  rw [Rat.floor_def', Rat.floor_def]

theorem digitsToNat_cons (c : Char) (ds : List Char) :
    digitsToNat (c :: ds) = digitVal c * 10 ^ ds.length + digitsToNat ds := by
  simp only [digitsToNat, List.foldl_cons]
  rw [foldlDigits_shift]
  simp

theorem fracDigits_spec : ∀ (fuel : Nat) (r : ℚ), 0 ≤ r → r < 1 →
    (r * 10 ^ fuel).den = 1 →
    (∀ c ∈ fracDigits fuel r, isDigitCh c = true) ∧
    ((digitsToNat (fracDigits fuel r) : ℚ) = r * 10 ^ (fracDigits fuel r).length) ∧
    (r ≠ 0 → fracDigits fuel r ≠ [])
  | 0, r, h0, h1, hden => by
    have hd1 : r.den = 1 := by simpa using hden
    have hcast : (r.num : ℚ) = r := Rat.coe_int_num_of_den_eq_one hd1
    have hnum : r.num = 0 := by
      have hlow : (0 : ℚ) ≤ (r.num : ℚ) := by rw [hcast]; exact h0
      have hhigh : ((r.num : ℚ) : ℚ) < 1 := by rw [hcast]; exact h1
      have h1' : r.num < 1 := by exact_mod_cast hhigh
      have h0' : 0 ≤ r.num := by exact_mod_cast hlow
      omega
    have hr : r = 0 := by rw [← hcast, hnum]; norm_num
    subst hr
    refine ⟨by simp [fracDigits], by simp [fracDigits, digitsToNat], fun h => absurd rfl h⟩
  | fuel + 1, r, h0, h1, hden => by
    by_cases hr0 : r = 0
    · subst hr0
      refine ⟨by simp [fracDigits], by simp [fracDigits, digitsToNat], fun h => absurd rfl h⟩
    · have hfl : Rat.floor (r * 10) = ⌊r * 10⌋ := ratFloor_eq _
      have h10 : (0 : ℚ) ≤ r * 10 := by positivity
      have h10' : r * 10 < 10 := by linarith
      have hfl0 : (0 : ℤ) ≤ ⌊r * 10⌋ := Int.floor_nonneg.mpr h10
      have hfl9 : ⌊r * 10⌋ < 10 := by
        have := Int.floor_lt.mpr (by exact_mod_cast h10' : r * 10 < ((10 : ℤ) : ℚ))
        exact this
      have hdn : (Rat.floor (r * 10)).toNat < 10 := by
        rw [hfl]; omega
      have hdnq : (((Rat.floor (r * 10)).toNat : Nat) : ℚ) = (⌊r * 10⌋ : ℚ) := by
        rw [hfl]
        exact_mod_cast congrArg (fun z : ℤ => (z : ℚ)) (Int.toNat_of_nonneg hfl0)
      set r1 := r * 10 - (Rat.floor (r * 10) : ℚ) with hr1
      have hr1f : r1 = Int.fract (r * 10) := by rw [hr1, hfl]; rfl
      have hr1nn : 0 ≤ r1 := by rw [hr1f]; exact Int.fract_nonneg _
      have hr1lt : r1 < 1 := by rw [hr1f]; exact Int.fract_lt_one _
      have hint : ((r * 10 ^ (fuel + 1)).num : ℚ) = r * 10 ^ (fuel + 1) :=
        Rat.coe_int_num_of_den_eq_one hden
      have hr1den : (r1 * 10 ^ fuel).den = 1 := by
        have : r1 * 10 ^ fuel = (((r * 10 ^ (fuel + 1)).num - ⌊r * 10⌋ * 10 ^ fuel : ℤ) : ℚ) := by
          push_cast
          rw [hint, hr1, hfl]
          ring
        rw [this]
        exact Rat.den_intCast _
      obtain ⟨ihdig, ihval, _⟩ := fracDigits_spec fuel r1 hr1nn hr1lt hr1den
      have hexp : fracDigits (fuel + 1) r
          = digitCh (Rat.floor (r * 10)).toNat :: fracDigits fuel r1 := by
        rw [fracDigits]
        simp [hr0, hr1]
      rw [hexp]
      refine ⟨?_, ?_, fun _ => by simp⟩
      · intro c hc
        rcases List.mem_cons.mp hc with hc | hc
        · subst hc; exact (digitCh_spec _ hdn).1
        · exact ihdig c hc
      · rw [digitsToNat_cons, (digitCh_spec _ hdn).2]
        push_cast
        rw [ihval, hdnq]
        have hsum : ((⌊r * 10⌋ : ℚ)) + r1 = r * 10 := by
          rw [hr1, hfl]; ring
        rw [List.length_cons]
        calc (⌊r * 10⌋ : ℚ) * 10 ^ (fracDigits fuel r1).length
              + r1 * 10 ^ (fracDigits fuel r1).length
            = ((⌊r * 10⌋ : ℚ) + r1) * 10 ^ (fracDigits fuel r1).length := by ring
          _ = r * 10 ^ ((fracDigits fuel r1).length + 1) := by rw [hsum]; ring

theorem numBoundary_parts (c : Char) (t : List Char) (h : numBoundary (c :: t) = true) :
    isDigitCh c = false ∧ c ≠ '.' ∧ c ≠ 'e' ∧ c ≠ 'E' := by
  simp only [numBoundary, Bool.not_eq_true', Bool.or_eq_false_iff, beq_eq_false_iff_ne] at h
  exact ⟨h.1.1.1, h.1.1.2, h.1.2, h.2⟩

theorem parseFracPart_skip (s : List Char) (h : numBoundary s = true) :
    parseFracPart s = some (0, s) := by
  cases s with
  | nil => rfl
  | cons c cs =>
    obtain ⟨_, hdot, _, _⟩ := numBoundary_parts c cs h
    simp [parseFracPart, hdot]

theorem parseExpPart_skip (s : List Char) (h : numBoundary s = true) :
    parseExpPart s = some (1, s) := by
  cases s with
  | nil => rfl
  | cons c cs =>
    obtain ⟨_, _, he, hE⟩ := numBoundary_parts c cs h
    simp [parseExpPart, he, hE]


theorem parseNumPos_printQNonneg (q : ℚ) (rest : List Char) (h0 : 0 ≤ q)
    (hden : (q * 10 ^ fracFuel).den = 1) (hrest : numBoundary rest = true) :
    parseNumPos (printQNonneg q ++ rest) = some (q, rest) := by
  have hfl : Rat.floor q = ⌊q⌋ := ratFloor_eq q
  have hfl0 : (0 : ℤ) ≤ ⌊q⌋ := Int.floor_nonneg.mpr h0
  have hipq : (((Rat.floor q).toNat : Nat) : ℚ) = (⌊q⌋ : ℚ) := by
    rw [hfl]
    exact_mod_cast congrArg (fun z : ℤ => (z : ℚ)) (Int.toNat_of_nonneg hfl0)
  have hfrf : q - (Rat.floor q : ℚ) = Int.fract q := by rw [hfl]; rfl
  have hfrnn : 0 ≤ q - (Rat.floor q : ℚ) := by rw [hfrf]; exact Int.fract_nonneg _
  have hfrlt : q - (Rat.floor q : ℚ) < 1 := by rw [hfrf]; exact Int.fract_lt_one _
  have hsum : ((Rat.floor q).toNat : ℚ) + (q - (Rat.floor q : ℚ)) = q := by
    rw [hipq, hfl]; ring
  by_cases hfr0 : q - (Rat.floor q : ℚ) = 0
  · have hprint : printQNonneg q = natDigits (Rat.floor q).toNat := by
      rw [printQNonneg]
      simp [hfr0]
    rw [hprint]
    obtain ⟨n, hq, hrw⟩ : ∃ n : ℕ, ((n : ℚ) = q ∧ (Rat.floor q).toNat = n) :=
      ⟨(Rat.floor q).toNat, by rw [hfr0] at hsum; simpa using hsum, rfl⟩
    rw [hrw]
    have hInt := parseIntPart_natDigits n rest (numBoundary_noDigitHead rest hrest)
    have hFrac := parseFracPart_skip rest hrest
    have hExp := parseExpPart_skip rest hrest
    simp only [parseNumPos, hInt, Option.bind_eq_bind, Option.some_bind, hFrac, hExp]
    rw [show ((n : ℚ) + 0) * 1 = q by rw [hq]; ring]
    rfl
  · have hfden : ((q - (Rat.floor q : ℚ)) * 10 ^ fracFuel).den = 1 := by
      have hint : ((q * 10 ^ fracFuel).num : ℚ) = q * 10 ^ fracFuel :=
        Rat.coe_int_num_of_den_eq_one hden
      have hexp : (q - (Rat.floor q : ℚ)) * 10 ^ fracFuel
          = (((q * 10 ^ fracFuel).num - ⌊q⌋ * 10 ^ fracFuel : ℤ) : ℚ) := by
        push_cast
        rw [hint, hfl]
        ring
      rw [hexp]
      exact Rat.den_intCast _
    obtain ⟨hdig, hval, hne⟩ := fracDigits_spec fracFuel _ hfrnn hfrlt hfden
    have hprint : printQNonneg q
        = natDigits (Rat.floor q).toNat ++ '.' :: fracDigits fracFuel (q - (Rat.floor q : ℚ)) := by
      rw [printQNonneg]
      simp [hfr0]
    rw [hprint]
    obtain ⟨n, fds, hq, hdig2, hval2, hne2, hrw1, hrw2⟩ :
        ∃ (n : ℕ) (fds : List Char), ((n : ℚ) + ((q : ℚ) - (Rat.floor q : ℚ)) = q
          ∧ (∀ c ∈ fds, isDigitCh c = true)
          ∧ ((digitsToNat fds : ℚ) = (q - (Rat.floor q : ℚ)) * 10 ^ fds.length)
          ∧ fds ≠ []
          ∧ (Rat.floor q).toNat = n
          ∧ fracDigits fracFuel (q - (Rat.floor q : ℚ)) = fds) :=
      ⟨(Rat.floor q).toNat, fracDigits fracFuel (q - (Rat.floor q : ℚ)),
        hsum, hdig, hval, hne hfr0, rfl, rfl⟩
    rw [hrw1, hrw2]
    have hassoc : (natDigits n ++ '.' :: fds) ++ rest = natDigits n ++ ('.' :: (fds ++ rest)) := by
      simp
    rw [hassoc]
    have hInt := parseIntPart_natDigits n ('.' :: (fds ++ rest))
      (by simp only [noDigitHead]; decide)
    have hspan : spanDigits (fds ++ rest) = (fds, rest) :=
      spanDigits_run _ _ hdig2 (numBoundary_noDigitHead rest hrest)
    have hFrac : parseFracPart ('.' :: (fds ++ rest))
        = some (q - (Rat.floor q : ℚ), rest) := by
      simp only [parseFracPart, if_pos rfl, hspan]
      have hie : fds.isEmpty = false := by
        cases fds with
        | nil => exact absurd rfl hne2
        | cons a b => rfl
      simp only [hie, Bool.false_eq_true, if_neg, ite_false]
      have hpow : ((10 : ℚ)) ^ fds.length ≠ 0 := by positivity
      rw [hval2, if_pos trivial]
      have hcancel : (q - (Rat.floor q : ℚ)) * 10 ^ fds.length / 10 ^ fds.length
          = q - (Rat.floor q : ℚ) := by field_simp
      rw [hcancel]
    have hExp := parseExpPart_skip rest hrest
    simp only [parseNumPos, hInt, Option.bind_eq_bind, Option.some_bind, hFrac, hExp]
    rw [show ((n : ℚ) + (q - (Rat.floor q : ℚ))) * 1 = q by rw [mul_one, hq]]
    rfl

theorem digit_excludes (c : Char) (h : isDigitCh c = true) :
    c ≠ '-' ∧ c ≠ '"' ∧ c ≠ '[' ∧ c ≠ '{' ∧ c ≠ 't' ∧ c ≠ 'f' ∧ c ≠ 'n'
      ∧ isWsCh c = false ∧ c ≠ ']' ∧ c ≠ '}' := by
  have hb : '0'.toNat ≤ c.toNat ∧ c.toNat ≤ '9'.toNat := by
    simpa [isDigitCh, Char.le_def] using h
  refine ⟨?_, ?_, ?_, ?_, ?_, ?_, ?_, ?_, ?_, ?_⟩
  all_goals first
    | (rintro rfl; exact absurd h (by decide))
    | (simp only [isWsCh]
       have h1 : (c == ' ') = false := by
         rw [beq_eq_false_iff_ne]; rintro rfl; revert hb; decide
       have h2 : (c == '\t') = false := by
         rw [beq_eq_false_iff_ne]; rintro rfl; revert hb; decide
       have h3 : (c == '\n') = false := by
         rw [beq_eq_false_iff_ne]; rintro rfl; revert hb; decide
       have h4 : (c == '\r') = false := by
         rw [beq_eq_false_iff_ne]; rintro rfl; revert hb; decide
       simp [h1, h2, h3, h4])

theorem parseNum_printQ (q : ℚ) (rest : List Char)
    (hden : (q * 10 ^ fracFuel).den = 1) (hrest : numBoundary rest = true) :
    parseNum (printQ q ++ rest) = some (q, rest) := by
  by_cases hq : q < 0
  · have hprint : printQ q = '-' :: printQNonneg (-q) := by simp [printQ, hq]
    have hnden : ((-q) * 10 ^ fracFuel).den = 1 := by
      have hswap : (-q) * 10 ^ fracFuel = -(q * 10 ^ fracFuel) := by ring
      rw [hswap, Rat.neg_den]
      exact hden
    have hpos := parseNumPos_printQNonneg (-q) rest (by linarith) hnden hrest
    rw [hprint]
    simp [parseNum, hpos]
  · have hprint : printQ q = printQNonneg q := by simp [printQ, hq]
    have h0 : 0 ≤ q := by linarith
    have hpos := parseNumPos_printQNonneg q rest h0 hden hrest
    rw [hprint]
    obtain ⟨c, t, heq, hcd, _⟩ := natDigits_head (Rat.floor q).toNat
    have hhead : ∃ u, printQNonneg q = c :: u := by
      rw [printQNonneg]
      by_cases hfr : q - (Rat.floor q : ℚ) = 0
      · exact ⟨t, by simp [hfr, heq]⟩
      · exact ⟨t ++ '.' :: fracDigits fracFuel (q - (Rat.floor q : ℚ)),
          by simp [hfr, heq]⟩
    obtain ⟨u, hu⟩ := hhead
    obtain ⟨hm, _⟩ := digit_excludes c hcd
    rw [hu] at hpos ⊢
    simp only [List.cons_append, parseNum, if_neg hm]
    exact hpos

/-! ### String escape round trip -/

theorem hexDigitCh_spec (n : Nat) (h : n < 16) :
    hexVal (hexDigitCh n) = n ∧ isHexCh (hexDigitCh n) = true := by
  interval_cases n <;> exact ⟨by decide, by decide⟩

theorem parseStrBody_bs (e d : Char) (t : List Char) (heu : e ≠ 'u')
    (hesc : escTarget e = some d) :
    parseStrBody ('\\' :: e :: t)
      = match parseStrBody t with
        | some (s, r) => some (d :: s, r)
        | none => none := by
  rw [parseStrBody.eq_def]
  simp [heu, hesc]

theorem parseStrBody_esc (c : Char) (t : List Char) :
    parseStrBody (escCh c ++ t)
      = match parseStrBody t with
        | some (s, r) => some (c :: s, r)
        | none => none := by
  by_cases h1 : c = '"'
  · subst h1
    rw [show escCh '"' ++ t = '\\' :: '"' :: t from rfl]
    exact parseStrBody_bs '"' '"' t (by decide) (by decide)
  by_cases h2 : c = '\\'
  · subst h2
    rw [show escCh '\\' ++ t = '\\' :: '\\' :: t from rfl]
    exact parseStrBody_bs '\\' '\\' t (by decide) (by decide)
  by_cases h3 : c.toNat = 8
  · have hc : c = Char.ofNat 8 := by rw [← Char.ofNat_toNat c, h3]
    have he : escCh c = ['\\', 'b'] := by simp [escCh, h1, h2, h3]
    rw [he, hc]
    exact parseStrBody_bs 'b' (Char.ofNat 8) t (by decide) (by decide)
  by_cases h4 : c.toNat = 9
  · have hc : c = Char.ofNat 9 := by rw [← Char.ofNat_toNat c, h4]
    have he : escCh c = ['\\', 't'] := by simp [escCh, h1, h2, h3, h4]
    rw [he, hc]
    exact parseStrBody_bs 't' (Char.ofNat 9) t (by decide) (by decide)
  by_cases h5 : c.toNat = 10
  · have hc : c = Char.ofNat 10 := by rw [← Char.ofNat_toNat c, h5]
    have he : escCh c = ['\\', 'n'] := by simp [escCh, h1, h2, h3, h4, h5]
    rw [he, hc]
    exact parseStrBody_bs 'n' (Char.ofNat 10) t (by decide) (by decide)
  by_cases h6 : c.toNat = 12
  · have hc : c = Char.ofNat 12 := by rw [← Char.ofNat_toNat c, h6]
    have he : escCh c = ['\\', 'f'] := by simp [escCh, h1, h2, h3, h4, h5, h6]
    rw [he, hc]
    exact parseStrBody_bs 'f' (Char.ofNat 12) t (by decide) (by decide)
  by_cases h7 : c.toNat = 13
  · have hc : c = Char.ofNat 13 := by rw [← Char.ofNat_toNat c, h7]
    have he : escCh c = ['\\', 'r'] := by simp [escCh, h1, h2, h3, h4, h5, h6, h7]
    rw [he, hc]
    exact parseStrBody_bs 'r' (Char.ofNat 13) t (by decide) (by decide)
  by_cases h8 : c.toNat < 32
  · have hhi : c.toNat / 16 < 16 := by omega
    have hlo : c.toNat % 16 < 16 := by omega
    have he : escCh c
        = ['\\', 'u', '0', '0', hexDigitCh (c.toNat / 16), hexDigitCh (c.toNat % 16)] := by
      simp [escCh, h1, h2, h3, h4, h5, h6, h7, h8]
    rw [he]
    have hvhi := (hexDigitCh_spec _ hhi).1
    have hherm := (hexDigitCh_spec _ hhi).2
    have hvlo := (hexDigitCh_spec _ hlo).1
    have hhlo := (hexDigitCh_spec _ hlo).2
    have harith : ((hexVal '0' * 16 + hexVal '0') * 16 + hexVal (hexDigitCh (c.toNat / 16))) * 16
        + hexVal (hexDigitCh (c.toNat % 16)) = c.toNat := by
      rw [hvhi, hvlo]
      have h0 : hexVal '0' = 0 := by decide
      rw [h0]
      omega
    rw [parseStrBody.eq_def]
    simp only [List.cons_append, List.nil_append]
    norm_num
    rw [hherm, hhlo]
    norm_num [harith, Char.ofNat_toNat]
    simp only [show isHexCh '0' = true from by decide, if_true]
    simp
  · have he : escCh c = [c] := by
      simp [escCh, h1, h2, h3, h4, h5, h6, h7, h8]
    rw [he]
    rw [parseStrBody.eq_def]
    simp only [List.cons_append, List.nil_append, if_neg h1, if_neg h2]
    rw [if_neg (by omega)]

theorem parseStrBody_print (s : List Char) (rest : List Char) :
    parseStrBody ((s.map escCh).flatten ++ '"' :: rest) = some (s, rest) := by
  induction s with
  | nil =>
    rw [parseStrBody.eq_def]
    simp
  | cons c s ih =>
    simp only [List.map_cons, List.flatten_cons, List.append_assoc]
    rw [parseStrBody_esc, ih]

/-! ### Whole-value parser round trip -/

theorem skipWs_not (c : Char) (cs : List Char) (h : isWsCh c = false) :
    skipWs (c :: cs) = c :: cs := by
  rw [skipWs.eq_def]
  simp [h]

theorem printQ_head (q : ℚ) :
    ∃ c u, printQ q = c :: u ∧ (c = '-' ∨ isDigitCh c = true) := by
  by_cases hq : q < 0
  · exact ⟨'-', printQNonneg (-q), by simp [printQ, hq], Or.inl rfl⟩
  · obtain ⟨c, t, heq, hcd, _⟩ := natDigits_head (Rat.floor q).toNat
    have hp : printQ q = printQNonneg q := by simp [printQ, hq]
    by_cases hfr : q - (Rat.floor q : ℚ) = 0
    · exact ⟨c, t, by rw [hp, printQNonneg]; simp [hfr, heq], Or.inr hcd⟩
    · exact ⟨c, t ++ '.' :: fracDigits fracFuel (q - (Rat.floor q : ℚ)),
        by rw [hp, printQNonneg]; simp [hfr, heq], Or.inr hcd⟩

theorem printJson_head (v : Json) :
    ∃ c u, printJson v = c :: u ∧ isWsCh c = false ∧ c ≠ ']' ∧ c ≠ '}' := by
  cases v with
  | null => refine ⟨'n', _, rfl, ?_, ?_, ?_⟩ <;> decide
  | bool b =>
    cases b with
    | true => refine ⟨'t', _, rfl, ?_, ?_, ?_⟩ <;> decide
    | false => refine ⟨'f', _, rfl, ?_, ?_, ?_⟩ <;> decide
  | str s => refine ⟨'"', _, rfl, ?_, ?_, ?_⟩ <;> decide
  | arr items =>
    cases items with
    | nil => refine ⟨'[', _, rfl, ?_, ?_, ?_⟩ <;> decide
    | cons v vs => refine ⟨'[', _, rfl, ?_, ?_, ?_⟩ <;> decide
  | obj members =>
    cases members with
    | nil => refine ⟨'\x7b', _, rfl, ?_, ?_, ?_⟩ <;> decide
    | cons m ms => refine ⟨'\x7b', _, rfl, ?_, ?_, ?_⟩ <;> decide
  | num q =>
    obtain ⟨c, u, heq, hc⟩ := printQ_head q
    rcases hc with hc | hc
    · subst hc
      exact ⟨'-', u, by rw [← heq]; rfl, by decide, by decide, by decide⟩
    · obtain ⟨_, _, _, _, _, _, _, hws, hbr, hbc⟩ := digit_excludes c hc
      exact ⟨c, u, by rw [← heq]; rfl, hws, hbr, hbc⟩

theorem parseValue_succ (fuel : Nat) (s : List Char) :
    parseValue (fuel + 1) s
      = (match skipWs s with
        | [] => none
        | c :: cs =>
          if c = '"' then (parseStrBody cs).map (fun p => (Json.str p.1, p.2))
          else if c = '[' then
            match skipWs cs with
            | [] => none
            | c1 :: r1 =>
              if c1 = ']' then some (Json.arr [], r1)
              else (parseItems fuel (c1 :: r1)).map (fun p => (Json.arr p.1, p.2))
          else if c = '{' then
            match skipWs cs with
            | [] => none
            | c1 :: r1 =>
              if c1 = '}' then some (Json.obj [], r1)
              else (parseMembers fuel (c1 :: r1)).map (fun p => (Json.obj p.1, p.2))
          else if c = 't' then
            match cs with
            | 'r' :: 'u' :: 'e' :: r => some (Json.bool true, r)
            | _ => none
          else if c = 'f' then
            match cs with
            | 'a' :: 'l' :: 's' :: 'e' :: r => some (Json.bool false, r)
            | _ => none
          else if c = 'n' then
            match cs with
            | 'u' :: 'l' :: 'l' :: r => some (Json.null, r)
            | _ => none
          else (parseNum (c :: cs)).map (fun p => (Json.num p.1, p.2))) := rfl

theorem parseItems_succ (fuel : Nat) (s : List Char) :
    parseItems (fuel + 1) s
      = (match parseValue fuel s with
        | none => none
        | some (v, r) =>
          match skipWs r with
          | [] => none
          | c1 :: r1 =>
            if c1 = ',' then
              match parseItems fuel r1 with
              | some (vs, r2) => some (v :: vs, r2)
              | none => none
            else if c1 = ']' then some ([v], r1)
            else none) := rfl

theorem parseMembers_succ (fuel : Nat) (s : List Char) :
    parseMembers (fuel + 1) s
      = (match skipWs s with
        | [] => none
        | c0 :: cs =>
          if c0 = '"' then
            match parseStrBody cs with
            | none => none
            | some (k, r) =>
              match skipWs r with
              | [] => none
              | c1 :: r1 =>
                if c1 = ':' then
                  match parseValue fuel r1 with
                  | none => none
                  | some (v, r2) =>
                    match skipWs r2 with
                    | [] => none
                    | c2 :: r3 =>
                      if c2 = ',' then
                        match parseMembers fuel r3 with
                        | some (ms, r4) => some ((k, v) :: ms, r4)
                        | none => none
                      else if c2 = '}' then some ([(k, v)], r3)
                      else none
                else none
          else none) := rfl

theorem parse_print_main : ∀ fuel : Nat,
    (∀ (v : Json) (rest : List Char), jnumOk v = true → numBoundary rest = true →
      (printJson v).length < fuel →
      parseValue fuel (printJson v ++ rest) = some (v, rest))
    ∧ (∀ (v : Json) (vs : List Json) (rest : List Char),
      jnumOk v = true → jnumOkArr vs = true →
      (printJson v ++ printArrTail vs).length + 1 < fuel →
      parseItems fuel (printJson v ++ printArrTail vs ++ (']' :: rest)) = some (v :: vs, rest))
    ∧ (∀ (k : List Char) (v : Json) (ms : List (List Char × Json)) (rest : List Char),
      jnumOk v = true → jnumOkObj ms = true →
      (printPair (k, v) ++ printObjTail ms).length + 1 < fuel →
      parseMembers fuel (printPair (k, v) ++ printObjTail ms ++ ('}' :: rest))
        = some ((k, v) :: ms, rest)) := by
  intro fuel
  induction fuel with
  | zero =>
    refine ⟨fun v rest _ _ h => absurd h (by omega),
      fun v vs rest _ _ h => absurd h (by omega),
      fun k v ms rest _ _ h => absurd h (by omega)⟩
  | succ fuel ih =>
    obtain ⟨ihv, ihi, ihm⟩ := ih
    refine ⟨?_, ?_, ?_⟩
    · -- parseValue on a printed value
      intro v rest hok hrest hfl
      cases v with
      | null =>
        rw [show printJson Json.null ++ rest = 'n' :: 'u' :: 'l' :: 'l' :: rest from rfl]
        rw [parseValue_succ, skipWs_not _ _ (by decide)]
        simp
      | bool b =>
        cases b with
        | true =>
          rw [show printJson (Json.bool true) ++ rest = 't' :: 'r' :: 'u' :: 'e' :: rest from rfl]
          rw [parseValue_succ, skipWs_not _ _ (by decide)]
          simp
        | false =>
          rw [show printJson (Json.bool false) ++ rest
              = 'f' :: 'a' :: 'l' :: 's' :: 'e' :: rest from rfl]
          rw [parseValue_succ, skipWs_not _ _ (by decide)]
          simp
      | num q =>
        have hden : (q * 10 ^ fracFuel).den = 1 := by
          simpa [jnumOk] using hok
        have hnum := parseNum_printQ q rest hden hrest
        obtain ⟨c, u, hhead, hc⟩ := printQ_head q
        have hfacts : isWsCh c = false ∧ c ≠ '"' ∧ c ≠ '[' ∧ c ≠ '{'
            ∧ c ≠ 't' ∧ c ≠ 'f' ∧ c ≠ 'n' := by
          rcases hc with hc | hc
          · subst hc
            exact ⟨by decide, by decide, by decide, by decide, by decide, by decide, by decide⟩
          · obtain ⟨hq2, hk, hb2, ht, hf, hn, hws, _, _⟩ := (digit_excludes c hc).2
            exact ⟨hws, hq2, hk, hb2, ht, hf, hn⟩
        obtain ⟨hws, hq2, hk, hb2, ht, hf, hn⟩ := hfacts
        rw [hhead] at hnum
        have hnum2 : parseNum (c :: (u ++ rest)) = some (q, rest) := by
          rw [show c :: (u ++ rest) = (c :: u) ++ rest from rfl]
          exact hnum
        rw [show printJson (Json.num q) ++ rest = c :: (u ++ rest) from by
          rw [show printJson (Json.num q) = printQ q from rfl, hhead]; rfl]
        rw [parseValue_succ, skipWs_not c _ hws]
        simp [hq2, hk, hb2, ht, hf, hn, hnum2]
      | str s =>
        rw [show printJson (Json.str s) ++ rest
            = '"' :: (((s.map escCh).flatten) ++ ('"' :: rest)) from by
          simp [printJson, printStr]]
        rw [parseValue_succ, skipWs_not _ _ (by decide)]
        simp [parseStrBody_print]
      | arr items =>
        cases items with
        | nil =>
          rw [show printJson (Json.arr []) ++ rest = '[' :: (']' :: rest) from rfl]
          rw [parseValue_succ, skipWs_not '[' _ (by decide)]
          simp [skipWs_not ']' rest (by decide)]
        | cons v vs =>
          have hok2 : jnumOk v = true ∧ jnumOkArr vs = true := by
            have hA : jnumOkArr (v :: vs) = true := by simpa [jnumOk] using hok
            simpa [jnumOkArr, Bool.and_eq_true] using hA
          obtain ⟨c, u, hhead, hws, hbr, _⟩ := printJson_head v
          have hlen : (printJson v ++ printArrTail vs).length + 1 < fuel := by
            simp only [printJson, List.length_append, List.length_cons] at hfl
            simp only [List.length_append]
            omega
          have hitems := ihi v vs rest hok2.1 hok2.2 hlen
          have hskip2 : skipWs (printJson v ++ (printArrTail vs ++ ']' :: rest))
              = c :: (u ++ (printArrTail vs ++ ']' :: rest)) := by
            rw [hhead, List.cons_append]
            exact skipWs_not c _ hws
          have hitems2 : parseItems fuel (c :: (u ++ (printArrTail vs ++ ']' :: rest)))
              = some (v :: vs, rest) := by
            rw [show c :: (u ++ (printArrTail vs ++ ']' :: rest))
                = printJson v ++ printArrTail vs ++ (']' :: rest) from by rw [hhead]; simp]
            exact hitems
          rw [show printJson (Json.arr (v :: vs)) ++ rest
              = '[' :: (printJson v ++ (printArrTail vs ++ ']' :: rest)) from by
            simp [printJson]]
          rw [parseValue_succ, skipWs_not '[' _ (by decide)]
          simp [hskip2, hbr, hitems2]
      | obj members =>
        cases members with
        | nil =>
          rw [show printJson (Json.obj []) ++ rest = '{' :: ('}' :: rest) from rfl]
          rw [parseValue_succ, skipWs_not '{' _ (by decide)]
          simp [skipWs_not '}' rest (by decide)]
        | cons m ms =>
          obtain ⟨k, v⟩ := m
          have hok2 : jnumOk v = true ∧ jnumOkObj ms = true := by
            have hA : jnumOkObj ((k, v) :: ms) = true := by simpa [jnumOk] using hok
            simpa [jnumOkObj, Bool.and_eq_true] using hA
          have hlen : (printPair (k, v) ++ printObjTail ms).length + 1 < fuel := by
            simp only [printJson, List.length_append, List.length_cons] at hfl
            simp only [List.length_append]
            omega
          have hmem := ihm k v ms rest hok2.1 hok2.2 hlen
          have hshape : printPair (k, v) ++ (printObjTail ms ++ '}' :: rest)
              = '"' :: ((k.map escCh).flatten
                ++ ('"' :: (':' :: (printJson v ++ (printObjTail ms ++ '}' :: rest))))) := by
            simp [printPair, printStr]
          have hskip2 : skipWs (printPair (k, v) ++ (printObjTail ms ++ '}' :: rest))
              = '"' :: ((k.map escCh).flatten
                ++ ('"' :: (':' :: (printJson v ++ (printObjTail ms ++ '}' :: rest))))) := by
            rw [hshape]
            exact skipWs_not '"' _ (by decide)
          have hmem2 : parseMembers fuel ('"' :: ((k.map escCh).flatten
              ++ ('"' :: (':' :: (printJson v ++ (printObjTail ms ++ '}' :: rest))))))
              = some ((k, v) :: ms, rest) := by
            rw [show '"' :: ((k.map escCh).flatten
                ++ ('"' :: (':' :: (printJson v ++ (printObjTail ms ++ '}' :: rest)))))
                = printPair (k, v) ++ printObjTail ms ++ ('}' :: rest) from by
              simp [printPair, printStr]]
            exact hmem
          rw [show printJson (Json.obj ((k, v) :: ms)) ++ rest
              = '{' :: (printPair (k, v) ++ (printObjTail ms ++ '}' :: rest)) from by
            simp [printJson]]
          rw [parseValue_succ, skipWs_not '{' _ (by decide)]
          simp [hskip2, hmem2]
    · -- parseItems on printed items
      intro v vs rest hokv hokvs hlen
      have hb : numBoundary (printArrTail vs ++ ']' :: rest) = true := by
        cases vs with
        | nil => simp only [printArrTail, List.nil_append, numBoundary]; decide
        | cons v' vs' => simp only [printArrTail, List.cons_append, numBoundary]; decide
      have hv := ihv v (printArrTail vs ++ ']' :: rest) hokv hb (by
        simp only [List.length_append] at hlen
        omega)
      rw [show printJson v ++ printArrTail vs ++ (']' :: rest)
          = printJson v ++ (printArrTail vs ++ ']' :: rest) from by simp]
      rw [parseItems_succ, hv]
      cases vs with
      | nil =>
        simp [printArrTail, skipWs_not ']' rest (by decide)]
      | cons v' vs' =>
        have hok3 : jnumOk v' = true ∧ jnumOkArr vs' = true := by
          simpa [jnumOkArr, Bool.and_eq_true] using hokvs
        have hlen' : (printJson v' ++ printArrTail vs').length + 1 < fuel := by
          simp only [printArrTail, List.length_append, List.length_cons] at hlen
          simp only [List.length_append]
          omega
        have hrec := ihi v' vs' rest hok3.1 hok3.2 hlen'
        have hskip : skipWs (printArrTail (v' :: vs') ++ ']' :: rest)
            = ',' :: (printJson v' ++ (printArrTail vs' ++ ']' :: rest)) := by
          rw [show printArrTail (v' :: vs') ++ ']' :: rest
              = ',' :: (printJson v' ++ (printArrTail vs' ++ ']' :: rest)) from by
            simp [printArrTail]]
          exact skipWs_not ',' _ (by decide)
        have hrec2 : parseItems fuel (printJson v' ++ (printArrTail vs' ++ ']' :: rest))
            = some (v' :: vs', rest) := by
          rw [← List.append_assoc]
          exact hrec
        simp [hskip, hrec2]
    · -- parseMembers on printed members
      intro k v ms rest hokv hokms hlen
      have hb : numBoundary (printObjTail ms ++ '}' :: rest) = true := by
        cases ms with
        | nil => simp only [printObjTail, List.nil_append, numBoundary]; decide
        | cons m' ms' => simp only [printObjTail, List.cons_append, numBoundary]; decide
      have hlenv : (printJson v).length < fuel := by
        simp only [printPair, List.length_append, List.length_cons] at hlen
        omega
      have hv := ihv v (printObjTail ms ++ '}' :: rest) hokv hb hlenv
      rw [show printPair (k, v) ++ printObjTail ms ++ ('}' :: rest)
          = '"' :: ((k.map escCh).flatten
            ++ ('"' :: (':' :: (printJson v ++ (printObjTail ms ++ '}' :: rest))))) from by
        simp [printPair, printStr]]
      rw [parseMembers_succ, skipWs_not '"' _ (by decide)]
      have hstr := parseStrBody_print k
        (':' :: (printJson v ++ (printObjTail ms ++ '}' :: rest)))
      have hskipc : skipWs (':' :: (printJson v ++ (printObjTail ms ++ '}' :: rest)))
          = ':' :: (printJson v ++ (printObjTail ms ++ '}' :: rest)) :=
        skipWs_not ':' _ (by decide)
      cases ms with
      | nil =>
        simp only [printObjTail, List.nil_append] at hstr hskipc hv ⊢
        simp [hstr, hskipc, hv, skipWs_not '}' rest (by decide)]
      | cons m' ms' =>
        obtain ⟨k', v'⟩ := m'
        have hok3 : jnumOk v' = true ∧ jnumOkObj ms' = true := by
          simpa [jnumOkObj, Bool.and_eq_true] using hokms
        have hlen' : (printPair (k', v') ++ printObjTail ms').length + 1 < fuel := by
          simp only [printPair, printObjTail, List.length_append, List.length_cons] at hlen
          simp only [printPair, List.length_append, List.length_cons]
          omega
        have hrec := ihm k' v' ms' rest hok3.1 hok3.2 hlen'
        have hskip : skipWs (printObjTail ((k', v') :: ms') ++ '}' :: rest)
            = ',' :: (printPair (k', v') ++ (printObjTail ms' ++ '}' :: rest)) := by
          rw [show printObjTail ((k', v') :: ms') ++ '}' :: rest
              = ',' :: (printPair (k', v') ++ (printObjTail ms' ++ '}' :: rest)) from by
            simp [printObjTail]]
          exact skipWs_not ',' _ (by decide)
        have hrec2 : parseMembers fuel (printPair (k', v') ++ (printObjTail ms' ++ '}' :: rest))
            = some ((k', v') :: ms', rest) := by
          rw [← List.append_assoc]
          exact hrec
        simp [hstr, hskipc, hv, hskip, hrec2]

/-- `JSON.parse` inverts `JSON.stringify` on every value whose numbers
print exactly. -/
theorem jsonParse_printJson (v : Json) (hok : jnumOk v = true) :
    jsonParse (printJson v) = some v := by
  have h := (parse_print_main ((printJson v).length + 1)).1 v [] hok rfl (by omega)
  rw [List.append_nil] at h
  rw [jsonParse, h]
  simp [skipWs]

/-! ### Base64 encoder and decoder lemmas -/

theorem b64Chr_mem : ∀ n, n < 64 → b64Chr n ∈ b64Alphabet := by decide

theorem b64Idx_chr : ∀ n, n < 64 → b64Idx (b64Chr n) = n := by decide

theorem eq_not_mem_b64 : '=' ∉ b64Alphabet := by decide

theorem isB64Ch_iff (c : Char) : isB64Ch c = true ↔ c ∈ b64Alphabet := by
  simp [isB64Ch, List.contains, List.elem_iff]

theorem b64Enc_eq_core_pad : ∀ bs : List Nat,
    b64EncBytes bs = encCore bs ++ List.replicate (padLen bs) '='
  | [] => rfl
  | [a] => by simp [b64EncBytes, encCore, padLen]
  | [a, b] => by simp [b64EncBytes, encCore, padLen]
  | a :: b :: c :: rest => by
    simp only [b64EncBytes, encCore, padLen, b64Enc_eq_core_pad rest, List.cons_append]

theorem encCore_mem : ∀ bs : List Nat, (∀ x ∈ bs, x < 256) →
    ∀ c ∈ encCore bs, c ∈ b64Alphabet
  | [], _, c, hc => absurd hc (by simp [encCore])
  | [a], h, c, hc => by
    have ha : a < 256 := h a (by simp)
    simp only [encCore, List.mem_cons, List.mem_singleton] at hc
    rcases hc with rfl | rfl | hc
    · exact b64Chr_mem _ (by omega)
    · exact b64Chr_mem _ (by omega)
    · exact absurd hc (by simp)
  | [a, b], h, c, hc => by
    have ha : a < 256 := h a (by simp)
    have hb : b < 256 := h b (by simp)
    simp only [encCore, List.mem_cons, List.mem_singleton] at hc
    rcases hc with rfl | rfl | rfl | hc
    · exact b64Chr_mem _ (by omega)
    · exact b64Chr_mem _ (by omega)
    · exact b64Chr_mem _ (by omega)
    · exact absurd hc (by simp)
  | a :: b :: c0 :: rest, h, c, hc => by
    have ha : a < 256 := h a (by simp)
    have hb : b < 256 := h b (by simp)
    have hc0 : c0 < 256 := h c0 (by simp)
    simp only [encCore, List.mem_cons] at hc
    rcases hc with rfl | rfl | rfl | rfl | hc
    · exact b64Chr_mem _ (by omega)
    · exact b64Chr_mem _ (by omega)
    · exact b64Chr_mem _ (by omega)
    · exact b64Chr_mem _ (by omega)
    · exact encCore_mem rest (fun x hx => h x (by simp [hx])) c hc

theorem padLen_le : ∀ bs : List Nat, padLen bs ≤ 2
  | [] => by simp [padLen]
  | [_] => by simp [padLen]
  | [_, _] => by simp [padLen]
  | _ :: _ :: _ :: rest => by simpa [padLen] using padLen_le rest

theorem enc_len_mod : ∀ bs : List Nat, ((encCore bs).length + padLen bs) % 4 = 0
  | [] => by simp [encCore, padLen]
  | [_] => by simp [encCore, padLen]
  | [_, _] => by simp [encCore, padLen]
  | _ :: _ :: _ :: rest => by
    have h := enc_len_mod rest
    simp only [encCore, padLen, List.length_cons]
    omega

theorem stripPad_append (x y : List Char) (h : 2 ≤ y.length) :
    stripPad (x ++ y) = x ++ stripPad y := by
  obtain ⟨e1, e2, w, hyr⟩ : ∃ e1 e2 w, y.reverse = e1 :: e2 :: w := by
    cases hy1 : y.reverse with
    | nil => simp_all
    | cons e1 t =>
      cases ht : t with
      | nil =>
        have hlen : y.reverse.length = y.length := y.length_reverse
        rw [hy1, ht] at hlen
        simp at hlen
        omega
      | cons e2 w => subst ht; exact ⟨e1, e2, w, rfl⟩
  have hxyr : (x ++ y).reverse = e1 :: e2 :: (w ++ x.reverse) := by
    rw [List.reverse_append, hyr]
    simp
  have hy : y = (e1 :: e2 :: w).reverse := by rw [← hyr, List.reverse_reverse]
  rw [stripPad, hxyr, stripPad, hyr]
  by_cases h1 : e1 = '='
  · by_cases h2 : e2 = '='
    · simp [h1, h2, hy]
    · simp [h1, h2, hy]
  · simp [h1, hy]

theorem enc_len_two : ∀ bs : List Nat, bs ≠ [] → 2 ≤ (b64EncBytes bs).length
  | [], h => absurd rfl h
  | [_], _ => by simp [b64EncBytes]
  | [_, _], _ => by simp [b64EncBytes]
  | _ :: _ :: _ :: rest, _ => by simp [b64EncBytes]

theorem stripPad_enc : ∀ bs : List Nat, stripPad (b64EncBytes bs) = encCore bs
  | [] => rfl
  | [a] => by
    show stripPad [b64Chr (a / 4), b64Chr (a % 4 * 16), '=', '='] = _
    rw [stripPad]
    simp [encCore]
  | [a, b] => by
    show stripPad [b64Chr (a / 4), b64Chr (a % 4 * 16 + b / 16), b64Chr (b % 16 * 4), '='] = _
    have hne : b64Chr (b % 16 * 4) ≠ '=' := by
      intro he
      exact eq_not_mem_b64 (he ▸ b64Chr_mem (b % 16 * 4) (by omega))
    rw [stripPad]
    simp [hne, encCore]
  | a :: b :: c :: rest => by
    by_cases hr : rest = []
    · subst hr
      have hne : b64Chr (c % 64) ≠ '=' := by
        intro he
        exact eq_not_mem_b64 (he ▸ b64Chr_mem (c % 64) (by omega))
      show stripPad [b64Chr (a / 4), b64Chr (a % 4 * 16 + b / 16),
        b64Chr (b % 16 * 4 + c / 64), b64Chr (c % 64)] = _
      rw [stripPad]
      simp [hne, encCore, b64EncBytes]
    · have hsplit : b64EncBytes (a :: b :: c :: rest)
          = [b64Chr (a / 4), b64Chr (a % 4 * 16 + b / 16), b64Chr (b % 16 * 4 + c / 64),
            b64Chr (c % 64)] ++ b64EncBytes rest := by
        simp [b64EncBytes]
      rw [hsplit, stripPad_append _ _ (enc_len_two rest hr), stripPad_enc rest]
      simp [encCore]

theorem b64Dec_enc : ∀ bs : List Nat, (∀ x ∈ bs, x < 256) →
    b64DecNums ((encCore bs).map b64Idx) = some bs
  | [], _ => rfl
  | [a], h => by
    have ha : a < 256 := h a (by simp)
    have h1 := b64Idx_chr (a / 4) (by omega)
    have h2 := b64Idx_chr (a % 4 * 16) (by omega)
    simp only [encCore, List.map_cons, List.map_nil, h1, h2, b64DecNums]
    have : a / 4 * 4 + a % 4 * 16 / 16 = a := by omega
    rw [this]
  | [a, b], h => by
    have ha : a < 256 := h a (by simp)
    have hb : b < 256 := h b (by simp)
    have h1 := b64Idx_chr (a / 4) (by omega)
    have h2 := b64Idx_chr (a % 4 * 16 + b / 16) (by omega)
    have h3 := b64Idx_chr (b % 16 * 4) (by omega)
    simp only [encCore, List.map_cons, List.map_nil, h1, h2, h3, b64DecNums]
    have e1 : a / 4 * 4 + (a % 4 * 16 + b / 16) / 16 = a := by omega
    have e2 : (a % 4 * 16 + b / 16) % 16 * 16 + b % 16 * 4 / 4 = b := by omega
    rw [e1, e2]
  | a :: b :: c :: rest, h => by
    have ha : a < 256 := h a (by simp)
    have hb : b < 256 := h b (by simp)
    have hc : c < 256 := h c (by simp)
    have h1 := b64Idx_chr (a / 4) (by omega)
    have h2 := b64Idx_chr (a % 4 * 16 + b / 16) (by omega)
    have h3 := b64Idx_chr (b % 16 * 4 + c / 64) (by omega)
    have h4 := b64Idx_chr (c % 64) (by omega)
    have hrec := b64Dec_enc rest (fun x hx => h x (by simp [hx]))
    simp only [encCore, List.map_cons, h1, h2, h3, h4, b64DecNums, hrec]
    have e1 : a / 4 * 4 + (a % 4 * 16 + b / 16) / 16 = a := by omega
    have e2 : (a % 4 * 16 + b / 16) % 16 * 16 + (b % 16 * 4 + c / 64) / 4 = b := by omega
    have e3 : (b % 16 * 4 + c / 64) % 4 * 64 + c % 64 = c := by omega
    rw [e1, e2, e3]

theorem atob_enc (bs : List Nat) (h : ∀ x ∈ bs, x < 256) :
    atob (b64EncBytes bs) = some (bs.map Char.ofNat) := by
  have hlen : (b64EncBytes bs).length % 4 = 0 := by
    rw [b64Enc_eq_core_pad bs]
    simp only [List.length_append, List.length_replicate]
    exact enc_len_mod bs
  have hstrip : stripPad (b64EncBytes bs) = encCore bs := stripPad_enc bs
  have hcorelen : (encCore bs).length % 4 ≠ 1 := by
    have h1 := enc_len_mod bs
    have h2 := padLen_le bs
    omega
  have hall : (encCore bs).all isB64Ch = true := by
    rw [List.all_eq_true]
    intro c hc
    exact (isB64Ch_iff c).mpr (encCore_mem bs h c hc)
  rw [atob]
  simp [hlen, hstrip, hcorelen, hall, b64Dec_enc bs h]

/-! ### Codec-level lemmas -/

theorem btoa_eq_some (s b : List Char) (h : btoa s = some b) :
    (∀ c ∈ s, c.toNat < 256) ∧ b = b64EncBytes (s.map Char.toNat) := by
  rw [btoa] at h
  by_cases hall : s.all (fun c => c.toNat < 256) = true
  · rw [if_pos hall] at h
    refine ⟨fun c hc => by simpa using List.all_eq_true.mp hall c hc,
      (Option.some_inj.mp h).symm⟩
  · rw [if_neg hall] at h
    exact absurd h (by simp)

theorem atob_btoa (s : List Char) (h : ∀ c ∈ s, c.toNat < 256) :
    atob (b64EncBytes (s.map Char.toNat)) = some s := by
  have hb : ∀ x ∈ s.map Char.toNat, x < 256 := by
    intro x hx
    obtain ⟨c, hc, rfl⟩ := List.mem_map.mp hx
    exact h c hc
  rw [atob_enc _ hb, List.map_map]
  simp [Function.comp_def, Char.ofNat_toNat]

theorem url_sub_chars : ∀ c ∈ b64Alphabet,
    underToSlash (minusToPlus (slashToUnder (plusToMinus c))) = c
      ∧ slashToUnder (plusToMinus c) ≠ '=' := by decide

theorem urlsafe_decode_encode (v : Json) (t : List Char) (hok : jnumOk v = true)
    (henc : encodeToUrlSafeBase64 v = some t) : decodeFromUrlSafeBase64 t = some v := by
  rw [encodeToUrlSafeBase64] at henc
  cases hb : encodeToBase64 v with
  | none => rw [hb] at henc; exact absurd henc (by simp)
  | some b =>
    rw [hb] at henc
    simp only [Option.map_some'] at henc
    have ht : t = ((b.map plusToMinus).map slashToUnder).filter (fun c => c != '=') :=
      (Option.some_inj.mp henc).symm
    have hb' : btoa (printJson v) = some b := by rw [← encodeToBase64]; exact hb
    obtain ⟨hlat, hbe⟩ := btoa_eq_some (printJson v) b hb'
    subst hbe
    have hbs : ∀ x ∈ (printJson v).map Char.toNat, x < 256 := by
      intro x hx
      obtain ⟨c, hc, rfl⟩ := List.mem_map.mp hx
      exact hlat c hc
    have hsplit := b64Enc_eq_core_pad ((printJson v).map Char.toNat)
    have hmemcore := encCore_mem ((printJson v).map Char.toNat) hbs
    -- the token is the substituted core
    have ht2 : t = ((encCore ((printJson v).map Char.toNat)).map plusToMinus).map slashToUnder := by
      rw [ht, hsplit]
      rw [List.map_append, List.map_append, List.filter_append]
      rw [List.map_replicate, List.map_replicate]
      have hpm : plusToMinus '=' = '=' := by decide
      have hsu : slashToUnder '=' = '=' := by decide
      rw [hpm, hsu]
      have hfil1 : (((encCore ((printJson v).map Char.toNat)).map plusToMinus).map
          slashToUnder).filter (fun c => c != '=')
          = ((encCore ((printJson v).map Char.toNat)).map plusToMinus).map slashToUnder := by
        rw [List.filter_eq_self]
        intro a ha
        obtain ⟨a1, ha1, rfl⟩ := List.mem_map.mp ha
        obtain ⟨a2, ha2, rfl⟩ := List.mem_map.mp ha1
        have := (url_sub_chars a2 (hmemcore a2 ha2)).2
        simpa [bne_iff_ne] using this
      have hfil2 : (List.replicate (padLen ((printJson v).map Char.toNat)) '=').filter
          (fun c => c != '=') = [] := by
        rw [List.filter_eq_nil_iff]
        intro a ha
        rw [List.eq_of_mem_replicate ha]
        simp
      rw [hfil1, hfil2, List.append_nil]
    -- undoing the substitution recovers the core
    have hback : (t.map minusToPlus).map underToSlash
        = encCore ((printJson v).map Char.toNat) := by
      rw [ht2, List.map_map, List.map_map, List.map_map]
      have hmapid : List.map (((underToSlash ∘ minusToPlus) ∘ slashToUnder) ∘ plusToMinus)
          (encCore ((printJson v).map Char.toNat))
          = List.map id (encCore ((printJson v).map Char.toNat)) :=
        List.map_congr_left (fun c hc => by
          simpa [Function.comp] using (url_sub_chars c (hmemcore c hc)).1)
      rw [hmapid, List.map_id]
    -- restoring the padding recovers the standard base64 form
    have hrp : restorePad (encCore ((printJson v).map Char.toNat))
        = b64EncBytes ((printJson v).map Char.toNat) := by
      have hm := enc_len_mod ((printJson v).map Char.toNat)
      have hp := padLen_le ((printJson v).map Char.toNat)
      rw [hsplit, restorePad]
      set L := (encCore ((printJson v).map Char.toNat)).length with hL
      interval_cases hpv : padLen ((printJson v).map Char.toNat)
      · have h0 : L % 4 = 0 := by omega
        simp [h0]
      · have h3 : L % 4 = 3 := by omega
        simp [h3]
      · have h2 : L % 4 = 2 := by omega
        simp [h2]
    rw [decodeFromUrlSafeBase64, hback, hrp, decodeFromBase64, atob_btoa (printJson v) hlat]
    simp [jsonParse_printJson v hok]

theorem dropWhile_eq_reverse_core (core : List Char)
    (hmem : ∀ c ∈ core, c ∈ b64Alphabet) :
    core.reverse.dropWhile (fun c => c == '=') = core.reverse := by
  cases hcr : core.reverse with
  | nil => rfl
  | cons c r =>
    have hc : c ∈ core := by
      rw [← List.mem_reverse, hcr]
      exact List.mem_cons_self c r
    have hne : (c == '=') = false := by
      rw [beq_eq_false_iff_ne]
      intro he
      rw [he] at hc
      exact eq_not_mem_b64 (hmem _ hc)
    simp [List.dropWhile_cons, hne]

theorem pattern_enc (bs : List Nat) (h : ∀ x ∈ bs, x < 256) :
    b64PatternOk (b64EncBytes bs) = true := by
  have hsplit := b64Enc_eq_core_pad bs
  have hp := padLen_le bs
  have hmem := encCore_mem bs h
  have hbody : ((b64EncBytes bs).reverse.dropWhile (fun c => c == '=')).reverse
      = encCore bs := by
    rw [hsplit, List.reverse_append, List.reverse_replicate]
    have hdrop : (List.replicate (padLen bs) '=' ++ (encCore bs).reverse).dropWhile
        (fun c => c == '=') = (encCore bs).reverse.dropWhile (fun c => c == '=') := by
      interval_cases hpv : padLen bs <;> simp [List.dropWhile_cons]
    rw [hdrop, dropWhile_eq_reverse_core (encCore bs) hmem, List.reverse_reverse]
  rw [b64PatternOk]
  simp only [hbody]
  have hlen : (b64EncBytes bs).length = (encCore bs).length + padLen bs := by
    rw [hsplit]
    simp
  simp only [Bool.and_eq_true, decide_eq_true_eq, List.all_eq_true]
  exact ⟨by omega, fun c hc => (isB64Ch_iff c).mpr (hmem c hc)⟩

theorem isValidBase64_enc (v : Json) (t : List Char) (hok : jnumOk v = true)
    (henc : encodeToBase64 v = some t) : isValidBase64 t = true := by
  have hb' : btoa (printJson v) = some t := by rw [← encodeToBase64]; exact henc
  obtain ⟨hlat, hbe⟩ := btoa_eq_some (printJson v) t hb'
  have hbs : ∀ x ∈ (printJson v).map Char.toNat, x < 256 := by
    intro x hx
    obtain ⟨c, hc, rfl⟩ := List.mem_map.mp hx
    exact hlat c hc
  have hdec : decodeFromBase64 t = some v := by
    rw [decodeFromBase64, hbe, atob_btoa (printJson v) hlat]
    simp [jsonParse_printJson v hok]
  have hpat : b64PatternOk t = true := by
    rw [hbe]
    exact pattern_enc _ hbs
  rw [isValidBase64, hpat, hdec]
  simp [henc]

theorem url_mapped_char : ∀ c0 ∈ b64Alphabet,
    isUrlSafeChar (slashToUnder (plusToMinus c0)) = true
      ∧ slashToUnder (plusToMinus c0) ≠ '+'
      ∧ slashToUnder (plusToMinus c0) ≠ '/'
      ∧ slashToUnder (plusToMinus c0) ≠ '=' := by decide

theorem urlSafeToken_chars (v : Json) (t : List Char)
    (henc : encodeToUrlSafeBase64 v = some t) :
    ∀ c ∈ t, isUrlSafeChar c = true ∧ c ≠ '+' ∧ c ≠ '/' ∧ c ≠ '=' := by
  rw [encodeToUrlSafeBase64] at henc
  cases hb : encodeToBase64 v with
  | none => rw [hb] at henc; exact absurd henc (by simp)
  | some b =>
    rw [hb] at henc
    simp only [Option.map_some'] at henc
    have hb' : btoa (printJson v) = some b := by rw [← encodeToBase64]; exact hb
    obtain ⟨hlat, hbe⟩ := btoa_eq_some (printJson v) b hb'
    have hbs : ∀ x ∈ (printJson v).map Char.toNat, x < 256 := by
      intro x hx
      obtain ⟨c, hc, rfl⟩ := List.mem_map.mp hx
      exact hlat c hc
    have ht : t = ((b.map plusToMinus).map slashToUnder).filter (fun c => c != '=') :=
      (Option.some_inj.mp henc).symm
    intro c hc
    rw [ht] at hc
    have hc2 := List.mem_of_mem_filter hc
    obtain ⟨c1, hc1, rfl⟩ := List.mem_map.mp hc2
    obtain ⟨c0, hc0, rfl⟩ := List.mem_map.mp hc1
    have hc0mem : c0 ∈ b64Alphabet ∨ c0 = '=' := by
      rw [hbe, b64Enc_eq_core_pad] at hc0
      rcases List.mem_append.mp hc0 with hm | hm
      · exact Or.inl (encCore_mem _ hbs c0 hm)
      · exact Or.inr (List.eq_of_mem_replicate hm)
    rcases hc0mem with hm | hm
    · exact url_mapped_char c0 hm
    · subst hm
      have heqp : slashToUnder (plusToMinus '=') = '=' := by decide
      rw [heqp] at hc
      have hcf := List.of_mem_filter hc
      simp at hcf

/-! ### Store lemmas: deletion as `eraseIdx`, the add/delete inverse, the
invariant under validated events -/

theorem enumFrom_filter_gt : ∀ (xs : List MapLocation) (n i : Nat), i < n →
    (xs.enumFrom n).filter (fun p => p.1 != i) = xs.enumFrom n := by
  intro xs
  induction xs with
  | nil => intro n i _; rfl
  | cons x xs ih =>
    intro n i h
    have hne : (n != i) = true := by simp; omega
    simp only [List.enumFrom, List.filter, hne]
    rw [ih (n + 1) i (by omega)]

theorem enumFrom_map_snd : ∀ (xs : List MapLocation) (n : Nat),
    ((xs.enumFrom n).map (fun p => p.2)) = xs := by
  intro xs
  induction xs with
  | nil => intro n; rfl
  | cons x xs ih =>
    intro n
    simp only [List.enumFrom, List.map, ih]

theorem delAux : ∀ (xs : List MapLocation) (n k : Nat),
    ((xs.enumFrom n).filter (fun p => p.1 != n + k)).map (fun p => p.2)
      = xs.eraseIdx k := by
  intro xs
  induction xs with
  | nil => intro n k; rfl
  | cons x xs ih =>
    intro n k
    cases k with
    | zero =>
      have hself : (n != n + 0) = false := by simp
      simp only [List.enumFrom, List.filter, hself]
      rw [enumFrom_filter_gt xs (n + 1) (n + 0) (by omega), enumFrom_map_snd]
      rfl
    | succ k =>
      have hne : (n != n + (k + 1)) = true := by simp
      simp only [List.enumFrom, List.filter, hne, List.map]
      have harith : n + (k + 1) = (n + 1) + k := by omega
      rw [harith, ih (n + 1) k]
      rfl

theorem deleteLocation_eq_eraseIdx (locs : List MapLocation) (i : Nat) :
    deleteLocation locs i = locs.eraseIdx i := by
  have h := delAux locs 0 i
  rw [Nat.zero_add] at h
  exact h

theorem jsIndexOf_append_self : ∀ (locs : List MapLocation) (r : MapLocation),
    r ∉ locs → jsIndexOf (locs ++ [r]) r = locs.length := by
  intro locs r h
  induction locs with
  | nil => simp [jsIndexOf]
  | cons x xs ih =>
    have hx : ¬(x = r) := fun he => h (List.mem_cons.mpr (Or.inl he.symm))
    rw [List.cons_append]
    simp only [jsIndexOf, if_neg hx]
    rw [ih (fun hm => h (List.mem_cons_of_mem _ hm))]
    rfl

theorem eraseIdx_append_length : ∀ (locs : List MapLocation) (r : MapLocation),
    (locs ++ [r]).eraseIdx locs.length = locs := by
  intro locs r
  induction locs with
  | nil => rfl
  | cons x xs ih => simp only [List.cons_append, List.length_cons, List.eraseIdx,
      List.append_eq, ih]

theorem add_delete_inverse (locs : List MapLocation) (r : MapLocation)
    (hr : r ∉ locs) :
    deleteLocation (addRecord locs r) (jsIndexOf (addRecord locs r) r) = locs := by
  rw [addRecord, jsIndexOf_append_self locs r hr, deleteLocation_eq_eraseIdx,
    eraseIdx_append_length]

theorem storeInvariant_step (locs : List MapLocation) (e : StoreEv)
    (hinv : storeInvariant locs = true) (hev : evValidated e = true) :
    storeInvariant (applyStoreEv locs e) = true := by
  cases e with
  | seedFromUrl d => exact absurd hev (by simp [evValidated])
  | mapClickAdd a b c d => exact absurd hev (by simp [evValidated])
  | del i =>
    rw [show applyStoreEv locs (.del i) = deleteLocation locs i from rfl,
      deleteLocation_eq_eraseIdx]
    rw [storeInvariant, List.all_eq_true] at hinv ⊢
    intro x hx
    exact hinv x ((List.eraseIdx_sublist locs i).subset hx)
  | formAdd latS lngS nameI descI =>
    rw [show applyStoreEv locs (.formAdd latS lngS nameI descI)
      = addLocation latS lngS nameI descI locs from rfl]
    cases latS with
    | none => exact hinv
    | some lat =>
      cases lngS with
      | none => exact hinv
      | some lng =>
        rw [addLocation]
        by_cases h1 : trimChars nameI = []
        · rw [if_pos h1]; exact hinv
        · rw [if_neg h1]
          by_cases h2 : lat < -90 ∨ lat > 90 ∨ lng < -180 ∨ lng > 180
          · rw [if_pos h2]; exact hinv
          · rw [if_neg h2]
            push_neg at h2
            obtain ⟨hla, hlb, hlc, hld⟩ := h2
            rw [storeInvariant, List.all_append, Bool.and_eq_true]
            refine ⟨hinv, ?_⟩
            simp only [List.all_cons, List.all_nil, Bool.and_true, locValid,
              Bool.and_eq_true, decide_eq_true_eq, bne_iff_ne, ne_eq]
            exact ⟨⟨⟨⟨by linarith, by linarith⟩, by linarith⟩, by linarith⟩, h1⟩

theorem storeInvariant_run (init : List MapLocation) (evs : List StoreEv)
    (hinit : storeInvariant init = true) (hv : evs.all evValidated = true) :
    storeInvariant (runStore init evs) = true := by
  induction evs generalizing init with
  | nil => exact hinit
  | cons e es ih =>
    rw [List.all_cons, Bool.and_eq_true] at hv
    exact ih (applyStoreEv init e) (storeInvariant_step init e hinit hv.1) hv.2

theorem storeInvariant_default : storeInvariant defaultMapLocations = true := by decide

/-! ### Viewport fitter lemmas -/

theorem zoomTierSpec_mono (s1 s2 : ℚ) (h : s1 ≤ s2) (m : Bool) :
    zoomTierSpec s2 m ≤ zoomTierSpec s1 m := by
  unfold zoomTierSpec
  split_ifs <;> first | omega | linarith

theorem mapBounds_zoom_tier (l l2 : MapLocation) (ls : List MapLocation) (m : Bool) :
    (mapBounds (l :: l2 :: ls) m).zoom = zoomTierSpec (spanOf l (l2 :: ls)) m := rfl

theorem mapBounds_center_two (l l2 : MapLocation) (ls : List MapLocation) (m : Bool) :
    (mapBounds (l :: l2 :: ls) m).center
      = ((foldMinBy (fun x => x.lat) l (l2 :: ls)
            + foldMaxBy (fun x => x.lat) l (l2 :: ls)) / 2,
         (foldMinBy (fun x => x.lng) l (l2 :: ls)
            + foldMaxBy (fun x => x.lng) l (l2 :: ls)) / 2) := rfl

theorem mapBounds_scenario (m : Bool) :
    mapBounds [⟨0, 0, [Char.ofNat 97], none⟩, ⟨0, 10, [Char.ofNat 98], none⟩] m
      = ⟨(0, 5), if m then 2 else 3⟩ := by
  cases m <;> decide

/-! ### Encoding-failure characterisation and padding restoration -/

theorem encode_isSome_iff_bytes (v : Json) :
    (encodeToUrlSafeBase64 v).isSome = (printJson v).all (fun c => c.toNat < 256) := by
  simp only [encodeToUrlSafeBase64, encodeToBase64, btoa]
  cases h : (printJson v).all (fun c => c.toNat < 256) <;> simp [h]

theorem restorePad_eq (s : List Char) :
    restorePad s = s ++ List.replicate ((4 - s.length % 4) % 4) '=' := by
  rw [restorePad]
  by_cases h : 4 - s.length % 4 ≠ 4
  · rw [if_pos h]
    have hlt : s.length % 4 < 4 := Nat.mod_lt _ (by omega)
    have hc : (4 - s.length % 4) % 4 = 4 - s.length % 4 := by omega
    rw [hc]
  · rw [if_neg h]
    push_neg at h
    have h0 : s.length % 4 = 0 := by omega
    rw [h0]
    simp

/-! ### Share-URL copy behaviour -/

theorem copy_reuses_stored (s : AppShareState) (h : s.locationsShareUrl ≠ []) :
    copyLocationsShareUrl s = some (some s.locationsShareUrl, s) := by
  rw [copyLocationsShareUrl, if_pos h]
  simp only [if_pos h]

theorem copy_empty_list (s : AppShareState) (h0 : s.locationsShareUrl = [])
    (h1 : s.mapLocations = []) : copyLocationsShareUrl s = some (none, s) := by
  rw [copyLocationsShareUrl, if_neg (by rw [h0]; simp), generateLocationsShareUrl,
    if_neg (by rw [h1]; simp)]
  simp

theorem copy_fresh_encode (s : AppShareState) (tok : List Char)
    (h0 : s.locationsShareUrl = []) (h1 : s.mapLocations ≠ [])
    (henc : encodeLocations s.mapLocations = some tok) :
    copyLocationsShareUrl s
      = some (some (appShareBase ++ tok), ⟨s.mapLocations, appShareBase ++ tok⟩) := by
  rw [copyLocationsShareUrl, if_neg (by rw [h0]; simp), generateLocationsShareUrl,
    if_pos (by simp [List.length_pos, h1]), henc]
  simp [appShareBase]

/-! ### The ten claims -/

/-- C1: for every JSON value whose numbers print exactly, decoding the
URL-safe token produced by encoding the value yields the value back, and
the decoder restores the stripped padding with (4 - len % 4) % 4
characters of the padding character before byte-level decoding. -/
theorem C1_roundtrip (v : Json) (t : List Char) (hok : jnumOk v = true)
    (henc : encodeToUrlSafeBase64 v = some t) :
    decodeFromUrlSafeBase64 t = some v
      ∧ decodeFromUrlSafeBase64 t
          = decodeFromBase64 (((t.map minusToPlus).map underToSlash)
              ++ List.replicate ((4 - t.length % 4) % 4) '=') := by
  refine ⟨urlsafe_decode_encode v t hok henc, ?_⟩
  have hlen : ((t.map minusToPlus).map underToSlash).length = t.length := by simp
  rw [decodeFromUrlSafeBase64, restorePad_eq, hlen]

theorem C1_roundtrip_witness :
    decodeFromUrlSafeBase64 ['I', 'm', 'h', 'p', 'I', 'g']
        = some (Json.str ['h', 'i'])
      ∧ decodeFromUrlSafeBase64 ['I', 'm', 'h', 'p', 'I', 'g']
          = decodeFromBase64 ((((['I', 'm', 'h', 'p', 'I', 'g']).map minusToPlus).map
                underToSlash)
              ++ List.replicate ((4 - (['I', 'm', 'h', 'p', 'I', 'g']).length % 4) % 4) '=') :=
  C1_roundtrip (Json.str ['h', 'i']) ['I', 'm', 'h', 'p', 'I', 'g'] (by rfl) (by rfl)

/-- C2: amended — every state reached from the default seed by the
validated mutations (form add, delete) satisfies the record invariant:
latitude in [-90, 90], longitude in [-180, 180], non-empty name.  The
original claim fails because the map-click add and the URL seeding
install records without any validation. -/
theorem C2_invariant (evs : List StoreEv) (hv : evs.all evValidated = true) :
    storeInvariant (runStore defaultMapLocations evs) = true :=
  storeInvariant_run defaultMapLocations evs storeInvariant_default hv

theorem C2_invariant_witness :
    storeInvariant (runStore defaultMapLocations
      [StoreEv.formAdd (some 1) (some 2) [Char.ofNat 97] [], StoreEv.del 0]) = true :=
  C2_invariant [StoreEv.formAdd (some 1) (some 2) [Char.ofNat 97] [], StoreEv.del 0]
    (by rfl)

theorem C2_counterexample :
    storeInvariant (runStore defaultMapLocations
      [StoreEv.mapClickAdd 91 0 [Char.ofNat 120] []]) = false := by decide

/-- C3: the claim that a clear scheduled by an older focus never clears a
newer focus early fails in the code: with clicks at 0 ms and 3000 ms, the
focus set by the second click is visible at 4999 ms but has been cleared
at 5000 ms by the uncancelled timer of the first click, strictly before
the 3000 + 5000 ms the newer focus was due to live until. -/
theorem C3_focus_cleared_early :
    focusAfter [(0, 0), (3000, 1)] 4999 = some 1
      ∧ focusAfter [(0, 0), (3000, 1)] (0 + clearDelayMs) = none
      ∧ 0 + clearDelayMs < 3000 + clearDelayMs := by decide

/-- C4: amended — the decode-then-re-encode validation accepts every
token produced by the standard padded base64 encoder; it rejects the
URL-safe tokens the share feature actually produces, because the regex
covers only the standard alphabet and the re-encoded form keeps its
padding (see the counterexample). -/
theorem C4_validate (v : Json) (t : List Char) (hok : jnumOk v = true)
    (henc : encodeToBase64 v = some t) : isValidBase64 t = true :=
  isValidBase64_enc v t hok henc

theorem C4_validate_witness :
    isValidBase64 ['d', 'H', 'J', '1', 'Z', 'Q', '=', '='] = true :=
  C4_validate (Json.bool true) ['d', 'H', 'J', '1', 'Z', 'Q', '=', '='] (by rfl) (by rfl)

theorem C4_counterexample :
    encodeToUrlSafeBase64 (Json.bool true) = some ['d', 'H', 'J', '1', 'Z', 'Q']
      ∧ isValidBase64 ['d', 'H', 'J', '1', 'Z', 'Q'] = false := ⟨rfl, rfl⟩

/-- C5: amended — in this embedding every value is serializable (no
reference cycles are expressible), and encoding succeeds exactly when
every character of the printed JSON text is below U+0100; btoa rejects
any larger character, so a serializable value whose text carries such a
character fails to encode (see the counterexample). -/
theorem C5_encode_error (v : Json) :
    (encodeToUrlSafeBase64 v).isSome = (printJson v).all (fun c => c.toNat < 256) :=
  encode_isSome_iff_bytes v

theorem C5_counterexample :
    encodeToUrlSafeBase64 (Json.str [Char.ofNat 8364]) = none := by rfl

/-- C6: amended — the empty set maps to the fixed fallback center with
zoom 3 on mobile and 4 on desktop (one step apart), and a singleton maps
to the point itself with zoom 8 on mobile and 10 on desktop: two steps
apart, not the one step the claim states (see the counterexample). -/
theorem C6_degenerate (l : MapLocation) :
    (mapBounds [] true).center = (46.5197, 6.6323)
      ∧ (mapBounds [] false).center = (46.5197, 6.6323)
      ∧ (mapBounds [] true).zoom + 1 = (mapBounds [] false).zoom
      ∧ (mapBounds [l] true).center = (l.lat, l.lng)
      ∧ (mapBounds [l] false).center = (l.lat, l.lng)
      ∧ (mapBounds [l] true).zoom + 2 = (mapBounds [l] false).zoom :=
  ⟨rfl, rfl, rfl, rfl, rfl, rfl⟩

theorem C6_counterexample :
    (mapBounds [⟨0, 0, [Char.ofNat 97], none⟩] true).zoom + 1
      ≠ (mapBounds [⟨0, 0, [Char.ofNat 97], none⟩] false).zoom := by decide

/-- C7: for two or more points the zoom is exactly the tier of the span
under the thresholds 0.01, 0.1, 1, 10, the tiering is non-increasing as
the span grows, and the two points (0,0) and (0,10) give center (0,5)
with the boundary tier zoom (2 mobile, 3 desktop). -/
theorem C7_tiers (l l2 : MapLocation) (ls : List MapLocation) (m : Bool) :
    (mapBounds (l :: l2 :: ls) m).zoom = zoomTierSpec (spanOf l (l2 :: ls)) m
      ∧ (∀ s1 s2 : ℚ, s1 ≤ s2 → ∀ b : Bool, zoomTierSpec s2 b ≤ zoomTierSpec s1 b)
      ∧ mapBounds [⟨0, 0, [Char.ofNat 97], none⟩, ⟨0, 10, [Char.ofNat 98], none⟩] m
          = ⟨(0, 5), if m then 2 else 3⟩ :=
  ⟨mapBounds_zoom_tier l l2 ls m, fun s1 s2 h b => zoomTierSpec_mono s1 s2 h b,
    mapBounds_scenario m⟩

/-- C8: every character of a token produced by the URL-safe encoder lies
in the set A-Z, a-z, 0-9, hyphen, underscore; in particular no plus,
slash or padding character ever appears. -/
theorem C8_token_safety (v : Json) (t : List Char)
    (henc : encodeToUrlSafeBase64 v = some t) :
    ∀ c ∈ t, isUrlSafeChar c = true ∧ c ≠ '+' ∧ c ≠ '/' ∧ c ≠ '=' :=
  urlSafeToken_chars v t henc

theorem C8_token_safety_witness :
    isUrlSafeChar 'd' = true ∧ 'd' ≠ '+' ∧ 'd' ≠ '/' ∧ 'd' ≠ '=' :=
  C8_token_safety (Json.bool true) ['d', 'H', 'J', '1', 'Z', 'Q'] (by rfl) 'd'
    (by decide)

/-- C9: amended — for a valid record that is not already in the store,
adding it and then deleting at the index of its first occurrence restores
the pre-add sequence in order; when the record already occurs, indexOf
finds the earlier copy and the wrong element is deleted (see the
counterexample). -/
theorem C9_add_delete (locs : List MapLocation) (r : MapLocation)
    (_hval : locValid r = true) (hr : r ∉ locs) :
    deleteLocation (addRecord locs r) (jsIndexOf (addRecord locs r) r) = locs :=
  add_delete_inverse locs r hr

theorem C9_add_delete_witness :
    deleteLocation (addRecord [] ⟨1, 2, [Char.ofNat 97], none⟩)
        (jsIndexOf (addRecord [] ⟨1, 2, [Char.ofNat 97], none⟩)
          ⟨1, 2, [Char.ofNat 97], none⟩)
      = [] :=
  C9_add_delete [] ⟨1, 2, [Char.ofNat 97], none⟩ (by decide) (by simp)

theorem C9_counterexample :
    deleteLocation
        (addRecord [⟨0, 0, [Char.ofNat 97], none⟩, ⟨1, 1, [Char.ofNat 98], none⟩]
          ⟨0, 0, [Char.ofNat 97], none⟩)
        (jsIndexOf
          (addRecord [⟨0, 0, [Char.ofNat 97], none⟩, ⟨1, 1, [Char.ofNat 98], none⟩]
            ⟨0, 0, [Char.ofNat 97], none⟩)
          ⟨0, 0, [Char.ofNat 97], none⟩)
      ≠ [⟨0, 0, [Char.ofNat 97], none⟩, ⟨1, 1, [Char.ofNat 98], none⟩] := by decide

/-- C10: once a share URL is stored the copy action reuses it unchanged
(even when the location list has changed since), a stored empty string
with an empty list copies nothing, and a stored empty string with a
non-empty list that encodes freshly copies the newly built URL and
stores it. -/
theorem C10_copy (s : AppShareState) :
    (s.locationsShareUrl ≠ [] →
        copyLocationsShareUrl s = some (some s.locationsShareUrl, s))
      ∧ (s.locationsShareUrl = [] → s.mapLocations = [] →
          copyLocationsShareUrl s = some (none, s))
      ∧ (∀ tok : List Char, s.locationsShareUrl = [] → s.mapLocations ≠ [] →
          encodeLocations s.mapLocations = some tok →
          copyLocationsShareUrl s
            = some (some (appShareBase ++ tok), ⟨s.mapLocations, appShareBase ++ tok⟩)) :=
  ⟨fun h => copy_reuses_stored s h,
   fun h0 h1 => copy_empty_list s h0 h1,
   fun tok h0 h1 henc => copy_fresh_encode s tok h0 h1 henc⟩

theorem C10_copy_witness :
    copyLocationsShareUrl ⟨[⟨0, 0, [Char.ofNat 97], none⟩], [Char.ofNat 117]⟩
      = some (some [Char.ofNat 117], ⟨[⟨0, 0, [Char.ofNat 97], none⟩], [Char.ofNat 117]⟩) :=
  (C10_copy ⟨[⟨0, 0, [Char.ofNat 97], none⟩], [Char.ofNat 117]⟩).1 (by decide)
